import Mathlib

/-!
Verification development for the reactive core and template engine of the
Act repository (src/src/core.ts).

The reactive system (createSignal, createEffect, the effect stack and the
subscriber notification loop) is embedded as a fuel-indexed interpreter
over an explicit state.  Effect bodies are represented as finite lists of
actions (signal read, signal write, throw, nested effect creation); this
mirrors the observable interaction of a user-supplied effect function with
the reactive runtime.  Cleanup callbacks returned by effect functions are
represented by freshly numbered identifiers; invoking a cleanup is
recorded as an observable trace event.  JavaScript exceptions are modelled
by an explicit exceptional outcome that carries the (not rolled back)
state, and nontermination of the synchronous notification cascade is
modelled by fuel exhaustion.
-/

namespace Reactive

/-- Observable events of a reactive run: invocation of a stored cleanup
(identified by effect id and cleanup generation id) and the start of an
effect body run. -/
inductive Ev where
  | cleanupEv (e c : Nat)
  | runEv (e : Nat)
deriving DecidableEq

/-- Actions an effect body can perform against the reactive runtime:
read a signal (the getter), write a signal (the setter), throw an
exception, or create a nested effect. -/
inductive Act (V : Type) where
  | readS (s : Nat)
  | writeS (s : Nat) (v : V)
  | thro
  | crea (e : Nat)
deriving DecidableEq

/-- Static description of an effect: the list of actions its function
performs, whether the function returns a cleanup function, and the list of
actions that returned cleanup function performs when invoked (cleanup
functions are user code and may read and write signals, create effects, or
throw, exactly like effect bodies). -/
structure EffDef (V : Type) where
  body : List (Act V)
  retCleanup : Bool
  cleanupBody : List (Act V)

/-- Global reactive state: signal values, per-signal subscriber lists
(JS Set insertion order, deduplicated), per-effect stored cleanup slot
(by generation id), a fresh cleanup-id counter, the effect stack (head is
the top), and the observable event trace. -/
structure St (V : Type) where
  values : Nat → V
  subs : Nat → List Nat
  cleanup : Nat → Option Nat
  nextCl : Nat
  stack : List Nat
  trace : List Ev

/-- Outcome of a reactive run: normal completion, an uncaught exception
(state is kept, JavaScript does not roll back mutations), or fuel
exhaustion standing for a nonterminating synchronous cascade. -/
inductive R (V : Type) where
  | ok (st : St V)
  | ex (st : St V)
  | oom

/-- The state carried by a completed or exceptional outcome. -/
def R.state? {V : Type} : R V → Option (St V)
  | .ok st => some st
  | .ex st => some st
  | .oom => none

/-- JS Set.add: append the element if it is not already present. -/
def addSub (l : List Nat) (e : Nat) : List Nat :=
  if e ∈ l then l else l ++ [e]

/-- Interpreter tasks: run the wrapped closure of an effect, run a list of
body actions, or notify the subscribers of a signal starting at index i
(live iteration over the evolving subscriber list, as JS Set forEach). -/
inductive Task (V : Type) where
  | wrapped (e : Nat)
  | acts (l : List (Act V))
  | notif (s : Nat) (i : Nat)

/-- Push the effect context onto the effect stack and record the start of
its body run; performed by the wrapped closure right before fn() is
invoked. -/
def pushRun {V : Type} (e : Nat) (st : St V) : St V :=
  { st with stack := e :: st.stack, trace := st.trace ++ [Ev.runEv e] }

/-- The outcome transformation performed by the wrapped closure of
createEffect after the effect body ran: on normal completion store a
returned cleanup (when the function returns one) and pop the effect
stack; an exception propagates with no pop and no cleanup store, exactly
as in the source, which has no try or finally around the body call. -/
def wrapPost {V : Type} (env : Nat → EffDef V) (e : Nat) : R V → R V
  | .ok st3 =>
    let st4 := if (env e).retCleanup then
        { st3 with cleanup := fun i => if i = e then some st3.nextCl else st3.cleanup i,
                   nextCl := st3.nextCl + 1 }
      else st3
    .ok { st4 with stack := st4.stack.tail }
  | .ex st3 => .ex st3
  | .oom => .oom

/-- One fuel-indexed interpreter for the three mutually recursive parts of
the reactive runtime, each translated from core.ts:
the wrapped closure of createEffect (if a cleanup is stored, invoke its
user code — recording the invocation event — and only after that call
returns clear the slot, as in the source where ctx.cleanup() precedes
ctx.cleanup = null; then push the context, run the body, store a returned
cleanup, pop — the part after the cleanup is split into pushRun and
wrapPost around the body), the body actions (getter: subscribe the top of
the effect stack; setter: strict inequality guard, then update and
notify; throw; nested createEffect), and the subscriber notification loop
of the setter.  An exception thrown by the stored cleanup propagates
before the context is pushed and before the slot is cleared. -/
def exec {V : Type} [DecidableEq V] (env : Nat → EffDef V) :
    Nat → Task V → St V → R V
  | _, .acts [], st => .ok st
  | 0, _, _ => .oom
  | f+1, .wrapped e, st =>
    match st.cleanup e with
    | some c =>
      match exec env f (.acts (env e).cleanupBody)
          { st with trace := st.trace ++ [Ev.cleanupEv e c] } with
      | .ok st1 =>
        wrapPost env e (exec env f (.acts (env e).body)
          (pushRun e { st1 with cleanup := fun i => if i = e then none else st1.cleanup i }))
      | .ex st1 => .ex st1
      | .oom => .oom
    | none =>
      wrapPost env e (exec env f (.acts (env e).body) (pushRun e st))
  | f+1, .acts (.readS s :: rest), st =>
    let st' := match st.stack.head? with
      | some e =>
        { st with subs := fun t => if t = s then addSub (st.subs s) e else st.subs t }
      | none => st
    exec env f (.acts rest) st'
  | f+1, .acts (.writeS s v :: rest), st =>
    if st.values s = v then
      exec env f (.acts rest) st
    else
      match exec env f (.notif s 0)
        { st with values := fun t => if t = s then v else st.values t } with
      | .ok st' => exec env f (.acts rest) st'
      | .ex st' => .ex st'
      | .oom => .oom
  | _+1, .acts (.thro :: _), st => .ex st
  | f+1, .acts (.crea e :: rest), st =>
    match exec env f (.wrapped e)
      { st with cleanup := fun i => if i = e then none else st.cleanup i } with
    | .ok st' => exec env f (.acts rest) st'
    | .ex st' => .ex st'
    | .oom => .oom
  | f+1, .notif s i, st =>
    if h : i < (st.subs s).length then
      match exec env f (.wrapped ((st.subs s).get ⟨i, h⟩)) st with
      | .ok st' => exec env f (.notif s (i+1)) st'
      | .ex st' => .ex st'
      | .oom => .oom
    else .ok st

/-- getActiveEffect from core.ts: null on an empty effect stack, otherwise
the top (innermost) effect context. -/
def getActiveEffect {V : Type} (st : St V) : Option Nat :=
  match st.stack with
  | [] => none
  | e :: _ => some e

/-- The getter of createSignal: if an effect context is active, add it to
the subscriber set of this signal, then return the current value. -/
def getSig {V : Type} (st : St V) (s : Nat) : V × St V :=
  match getActiveEffect st with
  | some e =>
    (st.values s,
     { st with subs := fun t => if t = s then addSub (st.subs s) e else st.subs t })
  | none => (st.values s, st)

/-- The setter of createSignal: compare with strict inequality; when equal
do nothing, otherwise store the new value and synchronously notify every
subscriber. -/
def setSig {V : Type} [DecidableEq V] (env : Nat → EffDef V) (f : Nat)
    (s : Nat) (v : V) (st : St V) : R V :=
  if st.values s = v then .ok st
  else exec env f (.notif s 0)
    { st with values := fun t => if t = s then v else st.values t }

/-- createEffect from core.ts: build a context with an empty cleanup slot
and immediately run the wrapped closure once. -/
def createEffect {V : Type} [DecidableEq V] (env : Nat → EffDef V) (f : Nat)
    (e : Nat) (st : St V) : R V :=
  exec env f (.wrapped e)
    { st with cleanup := fun i => if i = e then none else st.cleanup i }

/-- The state transformation of one getter call made by an effect body:
if the effect stack is nonempty its top is added to the subscriber list of
the signal being read; otherwise nothing changes. -/
def readStep {V : Type} (st : St V) (s : Nat) : St V :=
  match st.stack.head? with
  | some e =>
    { st with subs := fun t => if t = s then addSub (st.subs s) e else st.subs t }
  | none => st

/-- Folding readStep over a list of signal reads. -/
def applyReads {V : Type} : St V → List Nat → St V
  | st, [] => st
  | st, s :: rest => applyReads (readStep st s) rest

theorem readStep_values {V : Type} (st : St V) (s : Nat) :
    (readStep st s).values = st.values := by
  unfold readStep; cases st.stack.head? <;> rfl

theorem readStep_stack {V : Type} (st : St V) (s : Nat) :
    (readStep st s).stack = st.stack := by
  unfold readStep; cases st.stack.head? <;> rfl

theorem readStep_trace {V : Type} (st : St V) (s : Nat) :
    (readStep st s).trace = st.trace := by
  unfold readStep; cases st.stack.head? <;> rfl

theorem readStep_cleanup {V : Type} (st : St V) (s : Nat) :
    (readStep st s).cleanup = st.cleanup := by
  unfold readStep; cases st.stack.head? <;> rfl

theorem readStep_nextCl {V : Type} (st : St V) (s : Nat) :
    (readStep st s).nextCl = st.nextCl := by
  unfold readStep; cases st.stack.head? <;> rfl

theorem applyReads_values {V : Type} (rds : List Nat) (st : St V) :
    (applyReads st rds).values = st.values := by
  induction rds generalizing st with
  | nil => rfl
  | cons s rest ih => rw [applyReads, ih, readStep_values]

theorem applyReads_stack {V : Type} (rds : List Nat) (st : St V) :
    (applyReads st rds).stack = st.stack := by
  induction rds generalizing st with
  | nil => rfl
  | cons s rest ih => rw [applyReads, ih, readStep_stack]

theorem applyReads_trace {V : Type} (rds : List Nat) (st : St V) :
    (applyReads st rds).trace = st.trace := by
  induction rds generalizing st with
  | nil => rfl
  | cons s rest ih => rw [applyReads, ih, readStep_trace]

theorem applyReads_cleanup {V : Type} (rds : List Nat) (st : St V) :
    (applyReads st rds).cleanup = st.cleanup := by
  induction rds generalizing st with
  | nil => rfl
  | cons s rest ih => rw [applyReads, ih, readStep_cleanup]

theorem applyReads_nextCl {V : Type} (rds : List Nat) (st : St V) :
    (applyReads st rds).nextCl = st.nextCl := by
  induction rds generalizing st with
  | nil => rfl
  | cons s rest ih => rw [applyReads, ih, readStep_nextCl]

theorem readStep_subs_other {V : Type} (st : St V) (r s : Nat) (h : r ≠ s) :
    (readStep st r).subs s = st.subs s := by
  unfold readStep
  cases st.stack.head? with
  | none => rfl
  | some e => simp [Ne.symm h]

theorem applyReads_subs_not_mem {V : Type} (rds : List Nat) (st : St V)
    (s : Nat) (h : s ∉ rds) :
    (applyReads st rds).subs s = st.subs s := by
  induction rds generalizing st with
  | nil => rfl
  | cons r rest ih =>
    rw [applyReads, ih _ (fun hm => h (List.mem_cons_of_mem _ hm)),
      readStep_subs_other st r s (fun he => h (he ▸ List.mem_cons_self r rest))]

theorem applyReads_subs_keep {V : Type} (rds : List Nat) (st : St V)
    (s e : Nat) (hst : st.stack.head? = some e) (hs : st.subs s = [e]) :
    (applyReads st rds).subs s = [e] := by
  induction rds generalizing st with
  | nil => exact hs
  | cons r rest ih =>
    rw [applyReads]
    refine ih _ (by rw [readStep_stack]; exact hst) ?_
    by_cases hr : r = s
    · subst hr
      unfold readStep
      rw [hst]
      simp [hs, addSub]
    · rw [readStep_subs_other st r s hr]; exact hs

theorem applyReads_subs_mem {V : Type} (rds : List Nat) (st : St V)
    (s e : Nat) (hst : st.stack.head? = some e) (hs : st.subs s = [])
    (hm : s ∈ rds) :
    (applyReads st rds).subs s = [e] := by
  induction rds generalizing st with
  | nil => cases hm
  | cons r rest ih =>
    rw [applyReads]
    by_cases hr : r = s
    · subst hr
      refine applyReads_subs_keep rest _ r e (by rw [readStep_stack]; exact hst) ?_
      unfold readStep
      rw [hst]
      simp [hs, addSub]
    · refine ih _ (by rw [readStep_stack]; exact hst) ?_ ?_
      · rw [readStep_subs_other st r s hr]; exact hs
      · cases hm with
        | head => exact absurd rfl hr
        | tail _ h => exact h

/-- Running a body that consists only of signal reads succeeds whenever the
fuel covers the number of reads, and its effect on the state is exactly the
fold of readStep. -/
theorem exec_reads {V : Type} [DecidableEq V] (env : Nat → EffDef V)
    (rds : List Nat) (f : Nat) (st : St V) (hf : rds.length ≤ f) :
    exec env f (.acts (rds.map Act.readS)) st = .ok (applyReads st rds) := by
  induction rds generalizing st f with
  | nil => cases f <;> rfl
  | cons s rest ih =>
    match f, hf with
    | g+1, hf =>
      show exec env (g+1) (.acts (.readS s :: rest.map Act.readS)) st = _
      rw [exec]
      exact ih g (readStep st s) (Nat.le_of_succ_le_succ hf)

theorem exec_wrapped_ok {V : Type} [DecidableEq V] (env : Nat → EffDef V)
    (f e : Nat) (st st3 : St V) (h : st.cleanup e = none)
    (hrc : (env e).retCleanup = false)
    (hb : exec env f (.acts (env e).body)
      { st with stack := e :: st.stack, trace := st.trace ++ [Ev.runEv e] } = .ok st3) :
    exec env (f+1) (.wrapped e) st = .ok { st3 with stack := st3.stack.tail } := by
  rw [exec.eq_3, h]
  have hp : pushRun e st = { st with stack := e :: st.stack, trace := st.trace ++ [Ev.runEv e] } := rfl
  rw [hp, hb]
  simp [wrapPost, hrc]

theorem exec_notif_empty {V : Type} [DecidableEq V] (env : Nat → EffDef V)
    (f s : Nat) (st : St V) (h : st.subs s = []) :
    exec env (f+1) (.notif s 0) st = .ok st := by
  rw [exec.eq_8, dif_neg]
  rw [h]
  simp

theorem exec_notif_single {V : Type} [DecidableEq V] (env : Nat → EffDef V)
    (f s e : Nat) (st st' : St V) (hsubs : st.subs s = [e])
    (hw : exec env (f+1) (.wrapped e) st = .ok st')
    (hsubs' : st'.subs s = [e]) :
    exec env (f+2) (.notif s 0) st = .ok st' := by
  rw [exec.eq_8]
  rw [dif_pos (show 0 < (st.subs s).length by rw [hsubs]; simp)]
  have hget : ∀ (h : 0 < (st.subs s).length), (st.subs s).get ⟨0, h⟩ = e := by
    intro h
    rw [List.get_of_eq hsubs]
    simp
  rw [hget, hw]
  dsimp only
  rw [exec.eq_8, dif_neg]
  rw [hsubs']
  simp

/-- Running createEffect on an effect whose function is a sequence of
signal reads: the run succeeds, subscribes the effect to exactly the
signals it read, leaves values, stack and cleanup slot as they were, and
records one run event. -/
theorem createEffect_reader {V : Type} [DecidableEq V] (env : Nat → EffDef V)
    (rds : List Nat) (v0 : Nat → V)
    (hb : (env 0).body = List.map Act.readS rds)
    (hrc : (env 0).retCleanup = false) :
    ∃ st1, createEffect env (rds.length + 2) 0
        ⟨v0, fun _ => [], fun _ => none, 0, [], []⟩ = .ok st1 ∧
      (∀ s, s ∈ rds → st1.subs s = [0]) ∧
      (∀ s, s ∉ rds → st1.subs s = []) ∧
      st1.values = v0 ∧ st1.stack = [] ∧ st1.trace = [Ev.runEv 0] ∧
      st1.cleanup 0 = none := by
  set st0 : St V := ⟨v0, fun _ => [], fun _ => none, 0, [], []⟩ with hst0
  set st0c : St V := { st0 with cleanup := fun i => if i = 0 then none else st0.cleanup i } with hst0c
  set pSt : St V := { st0c with stack := 0 :: st0c.stack, trace := st0c.trace ++ [Ev.runEv 0] } with hpSt
  have hbody : exec env (rds.length + 1) (.acts (env 0).body) pSt = .ok (applyReads pSt rds) := by
    rw [hb]
    exact exec_reads env rds (rds.length + 1) pSt (Nat.le_succ _)
  have h1 : createEffect env (rds.length + 2) 0 st0 =
      .ok { applyReads pSt rds with stack := (applyReads pSt rds).stack.tail } := by
    show exec env ((rds.length + 1) + 1) (.wrapped 0) st0c = _
    exact exec_wrapped_ok env (rds.length + 1) 0 st0c _ rfl hrc hbody
  have hhead : pSt.stack.head? = some 0 := rfl
  refine ⟨_, h1, ?_, ?_, ?_, ?_, ?_, ?_⟩
  · intro s hs
    show (applyReads pSt rds).subs s = [0]
    exact applyReads_subs_mem rds pSt s 0 hhead rfl hs
  · intro s hs
    show (applyReads pSt rds).subs s = []
    rw [applyReads_subs_not_mem rds pSt s hs]
  · show (applyReads pSt rds).values = v0
    rw [applyReads_values]
  · show (applyReads pSt rds).stack.tail = []
    rw [applyReads_stack]
    rfl
  · show (applyReads pSt rds).trace = [Ev.runEv 0]
    rw [applyReads_trace]
    rfl
  · show (applyReads pSt rds).cleanup 0 = none
    rw [applyReads_cleanup]
    rfl

/-- A setter call that changes the value of a signal read by the (only)
subscribed read-only effect: it succeeds, re-runs the effect exactly once
(one new run event), stores the new value, and preserves the subscriber
sets, the empty stack and the empty cleanup slot. -/
theorem setSig_reader_hit {V : Type} [DecidableEq V] (env : Nat → EffDef V)
    (rds : List Nat) (A : Nat) (v : V) (st : St V)
    (hb : (env 0).body = List.map Act.readS rds)
    (hrc : (env 0).retCleanup = false)
    (hmem : A ∈ rds)
    (hsubsAll : ∀ s, s ∈ rds → st.subs s = [0])
    (hstack : st.stack = [])
    (hclean : st.cleanup 0 = none)
    (hv : v ≠ st.values A) :
    ∃ st', setSig env (rds.length + 2) A v st = .ok st' ∧
      (∀ s, s ∈ rds → st'.subs s = [0]) ∧
      (∀ s, s ∉ rds → st'.subs s = st.subs s) ∧
      st'.values A = v ∧ st'.stack = [] ∧
      st'.trace = st.trace ++ [Ev.runEv 0] ∧
      st'.cleanup 0 = none := by
  set stW : St V := { st with values := fun t => if t = A then v else st.values t } with hstW
  set pSt2 : St V := { stW with stack := 0 :: stW.stack, trace := stW.trace ++ [Ev.runEv 0] } with hpSt2
  have hb2 : exec env rds.length (.acts (env 0).body) pSt2 = .ok (applyReads pSt2 rds) := by
    rw [hb]
    exact exec_reads env rds rds.length pSt2 (Nat.le_refl _)
  have hw2 : exec env (rds.length + 1) (.wrapped 0) stW =
      .ok { applyReads pSt2 rds with stack := (applyReads pSt2 rds).stack.tail } :=
    exec_wrapped_ok env rds.length 0 stW _ hclean hrc hb2
  have hhead2 : pSt2.stack.head? = some 0 := rfl
  have hsubsW : stW.subs A = [0] := hsubsAll A hmem
  have hsubsA2 : ({ applyReads pSt2 rds with
      stack := (applyReads pSt2 rds).stack.tail } : St V).subs A = [0] := by
    show (applyReads pSt2 rds).subs A = [0]
    exact applyReads_subs_keep rds pSt2 A 0 hhead2 hsubsW
  refine ⟨{ applyReads pSt2 rds with stack := (applyReads pSt2 rds).stack.tail },
    ?_, ?_, ?_, ?_, ?_, ?_, ?_⟩
  · rw [setSig, if_neg (fun h => hv h.symm)]
    exact exec_notif_single env rds.length A 0 stW _ hsubsW hw2 hsubsA2
  · intro s hs
    show (applyReads pSt2 rds).subs s = [0]
    exact applyReads_subs_keep rds pSt2 s 0 hhead2 (hsubsAll s hs)
  · intro s hs
    show (applyReads pSt2 rds).subs s = st.subs s
    rw [applyReads_subs_not_mem rds pSt2 s hs]
  · show (applyReads pSt2 rds).values A = v
    rw [applyReads_values]
    show (if A = A then v else st.values A) = v
    rw [if_pos rfl]
  · show (applyReads pSt2 rds).stack.tail = []
    rw [applyReads_stack]
    show (0 :: st.stack).tail = []
    rw [hstack]
    rfl
  · show (applyReads pSt2 rds).trace = st.trace ++ [Ev.runEv 0]
    rw [applyReads_trace]
  · show (applyReads pSt2 rds).cleanup 0 = none
    rw [applyReads_cleanup]
    exact hclean

/-- A setter call on a signal with no subscribers: nothing is notified and
the trace is unchanged, whether or not the value changed. -/
theorem setSig_reader_miss {V : Type} [DecidableEq V] (env : Nat → EffDef V)
    (f B : Nat) (w : V) (st : St V) (hsubsB : st.subs B = []) :
    ∃ st', setSig env (f+1) B w st = .ok st' ∧ st'.trace = st.trace := by
  by_cases hwB : st.values B = w
  · refine ⟨st, ?_, rfl⟩
    rw [setSig, if_pos hwB]
  · refine ⟨{ st with values := fun t => if t = B then w else st.values t }, ?_, rfl⟩
    rw [setSig, if_neg hwB]
    exact exec_notif_empty env f B _ hsubsB

/-- Claim C1: an effect whose body reads signal A but never reads signal B is
re-run by a setter call that changes the value of A (one new run event) and is
not re-run by any setter call on B (trace unchanged); moreover a getter call
made while no effect is running returns the value and leaves the state, in
particular the subscriber sets, unchanged. -/
theorem signal_dependency_tracking {V : Type} [DecidableEq V] (A B : Nat)
    (rds : List Nat) (v0 : Nat → V) (hA : A ∈ rds) (hB : B ∉ rds) :
    ∃ st1,
      createEffect (fun _ => ⟨rds.map Act.readS, false, []⟩) (rds.length + 2) 0
        ⟨v0, fun _ => [], fun _ => none, 0, [], []⟩ = .ok st1 ∧
      st1.subs A = [0] ∧ st1.subs B = [] ∧ st1.values = v0 ∧
      st1.trace = [Ev.runEv 0] ∧
      (∀ v : V, v ≠ v0 A →
        ∃ st2, setSig (fun _ => ⟨rds.map Act.readS, false, []⟩) (rds.length + 2) A v st1 = .ok st2 ∧
          st2.trace = [Ev.runEv 0, Ev.runEv 0]) ∧
      (∀ w : V,
        ∃ st2, setSig (fun _ => ⟨rds.map Act.readS, false, []⟩) (rds.length + 2) B w st1 = .ok st2 ∧
          st2.trace = [Ev.runEv 0]) ∧
      (∀ (st : St V) (s : Nat), st.stack = [] → getSig st s = (st.values s, st)) := by
  obtain ⟨st1, hce, hsubs, hnot, hvals, hstack, htrace, hclean⟩ :=
    createEffect_reader (fun _ => ⟨rds.map Act.readS, false, []⟩) rds v0 rfl rfl
  refine ⟨st1, hce, hsubs A hA, hnot B hB, hvals, htrace, ?_, ?_, ?_⟩
  · intro v hv
    obtain ⟨st2, hset, _, _, _, _, htr2, _⟩ :=
      setSig_reader_hit (fun _ => ⟨rds.map Act.readS, false, []⟩) rds A v st1 rfl rfl
        hA hsubs hstack hclean (by rw [hvals]; exact hv)
    refine ⟨st2, hset, ?_⟩
    rw [htr2, htrace]
    rfl
  · intro w
    obtain ⟨st2, hset, htr2⟩ :=
      setSig_reader_miss (fun _ => ⟨rds.map Act.readS, false, []⟩) (rds.length + 1)
        B w st1 (hnot B hB)
    refine ⟨st2, hset, ?_⟩
    rw [htr2, htrace]
  · intro st s h
    rw [getSig, getActiveEffect, h]

/-- Witness for signal_dependency_tracking at A = 0, B = 1, body = one read of
signal 0, over integer values. -/
theorem signal_dependency_tracking_witness :
    (0 ∈ [0]) ∧ ((1 : Nat) ∉ ([0] : List Nat)) ∧
    (∃ st1,
      createEffect (fun _ => ⟨List.map Act.readS [0], false, []⟩) 3 0
        ⟨fun _ => (0 : Int), fun _ => [], fun _ => none, 0, [], []⟩ = .ok st1 ∧
      st1.subs 0 = [0] ∧ st1.subs 1 = [] ∧ st1.values = (fun _ => (0 : Int)) ∧
      st1.trace = [Ev.runEv 0] ∧
      (∀ v : Int, v ≠ 0 →
        ∃ st2, setSig (fun _ => ⟨List.map Act.readS [0], false, []⟩) 3 0 v st1 = .ok st2 ∧
          st2.trace = [Ev.runEv 0, Ev.runEv 0]) ∧
      (∀ w : Int,
        ∃ st2, setSig (fun _ => ⟨List.map Act.readS [0], false, []⟩) 3 1 w st1 = .ok st2 ∧
          st2.trace = [Ev.runEv 0]) ∧
      (∀ (st : St Int) (s : Nat), st.stack = [] → getSig st s = (st.values s, st))) :=
  ⟨by decide, by decide,
    signal_dependency_tracking 0 1 [0] (fun _ => 0) (by decide) (by decide)⟩

/-- Claim C2: the setter deduplicates under strict inequality: a setter call
whose argument equals the stored value is a no-op that notifies no subscriber
(the state, including the trace, is returned unchanged), so calling the setter
twice in a row with the same value triggers dependent re-runs at most once,
for values of any type; concretely, with a read-only effect subscribed to
signal A, the first of two identical setter calls on A re-runs the effect
exactly once and the second call returns the state untouched. -/
theorem setter_strict_dedup {V : Type} [DecidableEq V] (env : Nat → EffDef V)
    (f g s : Nat) (v : V) (st : St V) :
    (st.values s = v → setSig env f s v st = .ok st) ∧
    (∀ st₁, setSig env f s v st = .ok st₁ → st₁.values s = v →
      setSig env g s v st₁ = .ok st₁) ∧
    (∀ (A : Nat) (rds : List Nat) (v0 : Nat → V),
      A ∈ rds → v ≠ v0 A →
      ∃ st1 st2,
        createEffect (fun _ => ⟨rds.map Act.readS, false, []⟩) (rds.length + 2) 0
          ⟨v0, fun _ => [], fun _ => none, 0, [], []⟩ = .ok st1 ∧
        setSig (fun _ => ⟨rds.map Act.readS, false, []⟩) (rds.length + 2) A v st1 = .ok st2 ∧
        st2.trace = st1.trace ++ [Ev.runEv 0] ∧
        setSig (fun _ => ⟨rds.map Act.readS, false, []⟩) g A v st2 = .ok st2) := by
  refine ⟨?_, ?_, ?_⟩
  · intro h
    rw [setSig, if_pos h]
  · intro st₁ _ h₁
    rw [setSig, if_pos h₁]
  · intro A rds v0 hmem hv
    obtain ⟨st1, hce, hsubs, _, hvals, hstack, _, hclean⟩ :=
      createEffect_reader (fun _ => ⟨rds.map Act.readS, false, []⟩) rds v0 rfl rfl
    obtain ⟨st2, hset, _, _, hvalA, _, htr2, _⟩ :=
      setSig_reader_hit (fun _ => ⟨rds.map Act.readS, false, []⟩) rds A v st1 rfl rfl
        hmem hsubs hstack hclean (by rw [hvals]; exact hv)
    refine ⟨st1, st2, hce, hset, htr2, ?_⟩
    rw [setSig, if_pos hvalA]

/-- Witness for setter_strict_dedup: writing the stored value 5 into signal 0
is a no-op. -/
theorem setter_strict_dedup_witness :
    ((⟨fun _ => (5 : Int), fun _ => [], fun _ => none, 0, [], []⟩ : St Int).values 0 = 5) ∧
    setSig (fun _ => ⟨[], false, []⟩) 3 0 5
      (⟨fun _ => (5 : Int), fun _ => [], fun _ => none, 0, [], []⟩ : St Int) =
      .ok ⟨fun _ => (5 : Int), fun _ => [], fun _ => none, 0, [], []⟩ :=
  ⟨rfl,
    (setter_strict_dedup (fun _ => ⟨[], false, []⟩) 3 3 0 5
      ⟨fun _ => (5 : Int), fun _ => [], fun _ => none, 0, [], []⟩).1 rfl⟩

end Reactive


namespace Reactive

theorem pushRun_stack {V : Type} (e : Nat) (st : St V) :
    (pushRun e st).stack = e :: st.stack := rfl

/-- Fresh cleanup identifiers are never reused: if the identifier c is
below the allocation counter and currently stored in no cleanup slot, then
any reactive execution keeps it out of every slot and never records an
invocation of cleanup c in the trace it appends. -/
theorem exec_cleanFor {V : Type} [DecidableEq V] (env : Nat → EffDef V) (c : Nat) :
    ∀ (f : Nat) (t : Task V) (st st' : St V),
      c < st.nextCl → (∀ i, st.cleanup i ≠ some c) →
      (exec env f t st).state? = some st' →
      c < st'.nextCl ∧ (∀ i, st'.cleanup i ≠ some c) ∧
        ∃ tl, st'.trace = st.trace ++ tl ∧ ∀ e, Ev.cleanupEv e c ∉ tl := by
  intro f
  induction f with
  | zero =>
    intro t st st' h1 h2 hres
    match t with
    | .acts [] =>
      rw [show exec env 0 (.acts []) st = .ok st from rfl] at hres
      cases hres
      exact ⟨h1, h2, [], by simp, by simp⟩
    | .acts (a :: l) => cases hres
    | .wrapped e => cases hres
    | .notif s i => cases hres
  | succ f ih =>
    intro t st st' h1 h2 hres
    match t with
    | .acts [] =>
      rw [show exec env (f+1) (.acts []) st = .ok st from rfl] at hres
      cases hres
      exact ⟨h1, h2, [], by simp, by simp⟩
    | .wrapped e =>
      rw [exec.eq_3] at hres
      cases hcl : st.cleanup e with
      | none =>
        rw [hcl] at hres
        dsimp only at hres
        cases hbody : exec env f (.acts (env e).body) (pushRun e st) with
        | ok st3 =>
          rw [hbody] at hres
          obtain ⟨m1, m2, tl, htl, hclean⟩ :=
            ih (Task.acts (env e).body) (pushRun e st) st3 h1 h2 (by rw [hbody]; rfl)
          have htl' : st3.trace = (st.trace ++ [Ev.runEv e]) ++ tl := htl
          simp only [wrapPost, R.state?, Option.some.injEq] at hres
          subst hres
          have hmemtl : ∀ e', Ev.cleanupEv e' c ∉ Ev.runEv e :: tl := by
            intro e' hmem
            rcases List.mem_cons.1 hmem with heq | hm
            · cases heq
            · exact hclean e' hm
          by_cases hrc : (env e).retCleanup = true
          · simp only [hrc, if_true]
            refine ⟨Nat.lt_succ_of_lt m1, ?_, Ev.runEv e :: tl, ?_, hmemtl⟩
            · intro i
              by_cases hie : i = e
              · simp only [hie, if_pos rfl]
                intro heq
                injection heq with heq
                omega
              · simpa [hie] using m2 i
            · show st3.trace = st.trace ++ (Ev.runEv e :: tl)
              rw [htl']
              simp
          · simp only [hrc, if_false]
            refine ⟨m1, m2, Ev.runEv e :: tl, ?_, hmemtl⟩
            show st3.trace = st.trace ++ (Ev.runEv e :: tl)
            rw [htl']
            simp
        | ex st3 =>
          rw [hbody] at hres
          simp only [wrapPost, R.state?, Option.some.injEq] at hres
          subst hres
          obtain ⟨m1, m2, tl, htl, hclean⟩ :=
            ih (Task.acts (env e).body) (pushRun e st) st3 h1 h2 (by rw [hbody]; rfl)
          have htl' : st3.trace = (st.trace ++ [Ev.runEv e]) ++ tl := htl
          refine ⟨m1, m2, Ev.runEv e :: tl, ?_, ?_⟩
          · rw [htl']
            simp
          · intro e' hmem
            rcases List.mem_cons.1 hmem with heq | hm
            · cases heq
            · exact hclean e' hm
        | oom =>
          rw [hbody] at hres
          cases hres
      | some c0 =>
        rw [hcl] at hres
        dsimp only at hres
        have hc0 : c0 ≠ c := by
          intro hEq
          exact h2 e (hEq ▸ hcl)
        cases hcu : exec env f (.acts (env e).cleanupBody)
            { st with trace := st.trace ++ [Ev.cleanupEv e c0] } with
        | ok st1 =>
          rw [hcu] at hres
          dsimp only at hres
          obtain ⟨k1, k2, tlc, htlc, hclc⟩ :=
            ih (Task.acts (env e).cleanupBody)
              { st with trace := st.trace ++ [Ev.cleanupEv e c0] } st1 h1 h2
              (by rw [hcu]; rfl)
          have htlc' : st1.trace = (st.trace ++ [Ev.cleanupEv e c0]) ++ tlc := htlc
          have k2' : ∀ i, (if i = e then none else st1.cleanup i) ≠ some c := by
            intro i
            by_cases hie : i = e
            · simp [hie]
            · simpa [hie] using k2 i
          cases hbody : exec env f (.acts (env e).body)
              (pushRun e { st1 with cleanup := fun i => if i = e then none else st1.cleanup i }) with
          | ok st3 =>
            rw [hbody] at hres
            obtain ⟨m1, m2, tl, htl, hclean⟩ :=
              ih (Task.acts (env e).body)
                (pushRun e { st1 with cleanup := fun i => if i = e then none else st1.cleanup i })
                st3 k1 k2' (by rw [hbody]; rfl)
            have htl' : st3.trace = (st1.trace ++ [Ev.runEv e]) ++ tl := htl
            simp only [wrapPost, R.state?, Option.some.injEq] at hres
            subst hres
            have htr3 : st3.trace =
                st.trace ++ (Ev.cleanupEv e c0 :: (tlc ++ Ev.runEv e :: tl)) := by
              rw [htl', htlc']
              simp
            have hmemtl : ∀ e',
                Ev.cleanupEv e' c ∉ Ev.cleanupEv e c0 :: (tlc ++ Ev.runEv e :: tl) := by
              intro e' hmem
              rcases List.mem_cons.1 hmem with heq | hm
              · injection heq with heq1 heq2
                exact hc0 heq2.symm
              · rcases List.mem_append.1 hm with hm1 | hm2
                · exact hclc e' hm1
                · rcases List.mem_cons.1 hm2 with heq2 | hm3
                  · cases heq2
                  · exact hclean e' hm3
            by_cases hrc : (env e).retCleanup = true
            · simp only [hrc, if_true]
              refine ⟨Nat.lt_succ_of_lt m1, ?_,
                Ev.cleanupEv e c0 :: (tlc ++ Ev.runEv e :: tl), htr3, hmemtl⟩
              intro i
              by_cases hie : i = e
              · simp only [hie, if_pos rfl]
                intro heq
                injection heq with heq
                omega
              · simpa [hie] using m2 i
            · simp only [hrc, if_false]
              exact ⟨m1, m2, Ev.cleanupEv e c0 :: (tlc ++ Ev.runEv e :: tl), htr3, hmemtl⟩
          | ex st3 =>
            rw [hbody] at hres
            simp only [wrapPost, R.state?, Option.some.injEq] at hres
            subst hres
            obtain ⟨m1, m2, tl, htl, hclean⟩ :=
              ih (Task.acts (env e).body)
                (pushRun e { st1 with cleanup := fun i => if i = e then none else st1.cleanup i })
                st3 k1 k2' (by rw [hbody]; rfl)
            have htl' : st3.trace = (st1.trace ++ [Ev.runEv e]) ++ tl := htl
            refine ⟨m1, m2, Ev.cleanupEv e c0 :: (tlc ++ Ev.runEv e :: tl), ?_, ?_⟩
            · rw [htl', htlc']
              simp
            · intro e' hmem
              rcases List.mem_cons.1 hmem with heq | hm
              · injection heq with heq1 heq2
                exact hc0 heq2.symm
              · rcases List.mem_append.1 hm with hm1 | hm2
                · exact hclc e' hm1
                · rcases List.mem_cons.1 hm2 with heq2 | hm3
                  · cases heq2
                  · exact hclean e' hm3
          | oom =>
            rw [hbody] at hres
            cases hres
        | ex st1 =>
          rw [hcu] at hres
          simp only [R.state?, Option.some.injEq] at hres
          subst hres
          obtain ⟨k1, k2, tlc, htlc, hclc⟩ :=
            ih (Task.acts (env e).cleanupBody)
              { st with trace := st.trace ++ [Ev.cleanupEv e c0] } st1 h1 h2
              (by rw [hcu]; rfl)
          have htlc' : st1.trace = (st.trace ++ [Ev.cleanupEv e c0]) ++ tlc := htlc
          refine ⟨k1, k2, Ev.cleanupEv e c0 :: tlc, ?_, ?_⟩
          · rw [htlc']
            simp
          · intro e' hmem
            rcases List.mem_cons.1 hmem with heq | hm
            · injection heq with heq1 heq2
              exact hc0 heq2.symm
            · exact hclc e' hm
        | oom =>
          rw [hcu] at hres
          cases hres
    | .acts (.readS s :: rest) =>
      rw [exec.eq_4] at hres
      cases hh : st.stack.head? with
      | none =>
        simp only [hh] at hres
        exact ih (Task.acts rest) st st' h1 h2 hres
      | some e0 =>
        simp only [hh] at hres
        exact ih (Task.acts rest)
          { st with subs := fun t => if t = s then addSub (st.subs s) e0 else st.subs t } st'
          h1 h2 hres
    | .acts (.writeS s v :: rest) =>
      rw [exec.eq_5] at hres
      by_cases hv : st.values s = v
      · simp only [if_pos hv] at hres
        exact ih _ _ _ h1 h2 hres
      · simp only [if_neg hv] at hres
        cases hn : exec env f (.notif s 0)
            { st with values := fun t => if t = s then v else st.values t } with
        | ok stM =>
          rw [hn] at hres
          obtain ⟨m1, m2, tl1, htl1, hcl1⟩ :=
            ih (Task.notif s 0)
              { st with values := fun t => if t = s then v else st.values t } stM
              h1 h2 (by rw [hn]; rfl)
          obtain ⟨g1, g2, tl2, htl2, hcl2⟩ := ih _ _ _ m1 m2 hres
          refine ⟨g1, g2, tl1 ++ tl2, ?_, ?_⟩
          · rw [htl2, htl1, List.append_assoc]
          · intro e'
            simp only [List.mem_append, not_or]
            exact ⟨hcl1 e', hcl2 e'⟩
        | ex stM =>
          rw [hn] at hres
          obtain rfl : stM = st' := by simpa [R.state?] using hres
          exact ih (Task.notif s 0)
            { st with values := fun t => if t = s then v else st.values t } stM
            h1 h2 (by rw [hn]; rfl)
        | oom =>
          rw [hn] at hres
          cases hres
    | .acts (.thro :: rest) =>
      rw [exec.eq_6] at hres
      cases hres
      exact ⟨h1, h2, [], by simp, by simp⟩
    | .acts (.crea e :: rest) =>
      rw [exec.eq_7] at hres
      have hc2 : ∀ i, ({ st with cleanup := fun i => if i = e then none else st.cleanup i } : St V).cleanup i ≠ some c := by
        intro i
        by_cases hie : i = e <;> simp [hie]
        exact h2 i
      cases hn : exec env f (.wrapped e)
          { st with cleanup := fun i => if i = e then none else st.cleanup i } with
      | ok stM =>
        rw [hn] at hres
        obtain ⟨m1, m2, tl1, htl1, hcl1⟩ :=
          ih (Task.wrapped e)
            { st with cleanup := fun i => if i = e then none else st.cleanup i } stM
            h1 hc2 (by rw [hn]; rfl)
        obtain ⟨g1, g2, tl2, htl2, hcl2⟩ := ih _ _ _ m1 m2 hres
        refine ⟨g1, g2, tl1 ++ tl2, ?_, ?_⟩
        · rw [htl2, htl1, List.append_assoc]
        · intro e'
          simp only [List.mem_append, not_or]
          exact ⟨hcl1 e', hcl2 e'⟩
      | ex stM =>
        rw [hn] at hres
        obtain rfl : stM = st' := by simpa [R.state?] using hres
        exact ih (Task.wrapped e)
          { st with cleanup := fun i => if i = e then none else st.cleanup i } stM
          h1 hc2 (by rw [hn]; rfl)
      | oom =>
        rw [hn] at hres
        cases hres
    | .notif s i =>
      rw [exec.eq_8] at hres
      by_cases hi : i < (st.subs s).length
      · rw [dif_pos hi] at hres
        cases hn : exec env f (.wrapped ((st.subs s).get ⟨i, hi⟩)) st with
        | ok stM =>
          rw [hn] at hres
          obtain ⟨m1, m2, tl1, htl1, hcl1⟩ :=
            ih (Task.wrapped ((st.subs s).get ⟨i, hi⟩)) st stM h1 h2 (by rw [hn]; rfl)
          obtain ⟨g1, g2, tl2, htl2, hcl2⟩ := ih _ _ _ m1 m2 hres
          refine ⟨g1, g2, tl1 ++ tl2, ?_, ?_⟩
          · rw [htl2, htl1, List.append_assoc]
          · intro e'
            simp only [List.mem_append, not_or]
            exact ⟨hcl1 e', hcl2 e'⟩
        | ex stM =>
          rw [hn] at hres
          obtain rfl : stM = st' := by simpa [R.state?] using hres
          exact ih (Task.wrapped ((st.subs s).get ⟨i, hi⟩)) st stM h1 h2 (by rw [hn]; rfl)
        | oom =>
          rw [hn] at hres
          cases hres
      · rw [dif_neg hi] at hres
        cases hres
        exact ⟨h1, h2, [], by simp, by simp⟩

/-- Trace monotonicity: any run that ends normally or exceptionally only
appends to the event trace. -/
theorem exec_trace_mono {V : Type} [DecidableEq V] (env : Nat → EffDef V) :
    ∀ (f : Nat) (t : Task V) (st st' : St V),
      (exec env f t st).state? = some st' →
      ∃ tl, st'.trace = st.trace ++ tl := by
  intro f
  induction f with
  | zero =>
    intro t st st' hres
    match t with
    | .acts [] =>
      rw [show exec env 0 (.acts []) st = .ok st from rfl] at hres
      cases hres
      exact ⟨[], by simp⟩
    | .acts (a :: l) => cases hres
    | .wrapped e => cases hres
    | .notif s i => cases hres
  | succ f ih =>
    intro t st st' hres
    match t with
    | .acts [] =>
      rw [show exec env (f+1) (.acts []) st = .ok st from rfl] at hres
      cases hres
      exact ⟨[], by simp⟩
    | .wrapped e =>
      rw [exec.eq_3] at hres
      cases hcl : st.cleanup e with
      | none =>
        rw [hcl] at hres
        dsimp only at hres
        cases hbody : exec env f (.acts (env e).body) (pushRun e st) with
        | ok st3 =>
          rw [hbody] at hres
          obtain ⟨tl, htl⟩ :=
            ih (Task.acts (env e).body) (pushRun e st) st3 (by rw [hbody]; rfl)
          have htl' : st3.trace = (st.trace ++ [Ev.runEv e]) ++ tl := htl
          simp only [wrapPost, R.state?, Option.some.injEq] at hres
          subst hres
          have htr : st3.trace = st.trace ++ (Ev.runEv e :: tl) := by
            rw [htl']
            simp
          by_cases hrc : (env e).retCleanup = true
          · simp only [hrc, if_true]
            exact ⟨Ev.runEv e :: tl, htr⟩
          · simp only [hrc, if_false]
            exact ⟨Ev.runEv e :: tl, htr⟩
        | ex st3 =>
          rw [hbody] at hres
          simp only [wrapPost, R.state?, Option.some.injEq] at hres
          subst hres
          obtain ⟨tl, htl⟩ :=
            ih (Task.acts (env e).body) (pushRun e st) st3 (by rw [hbody]; rfl)
          have htl' : st3.trace = (st.trace ++ [Ev.runEv e]) ++ tl := htl
          exact ⟨Ev.runEv e :: tl, by rw [htl']; simp⟩
        | oom =>
          rw [hbody] at hres
          cases hres
      | some c0 =>
        rw [hcl] at hres
        dsimp only at hres
        cases hcu : exec env f (.acts (env e).cleanupBody)
            { st with trace := st.trace ++ [Ev.cleanupEv e c0] } with
        | ok st1 =>
          rw [hcu] at hres
          dsimp only at hres
          obtain ⟨tlc, htlc⟩ :=
            ih (Task.acts (env e).cleanupBody)
              { st with trace := st.trace ++ [Ev.cleanupEv e c0] } st1
              (by rw [hcu]; rfl)
          have htlc' : st1.trace = (st.trace ++ [Ev.cleanupEv e c0]) ++ tlc := htlc
          cases hbody : exec env f (.acts (env e).body)
              (pushRun e { st1 with cleanup := fun i => if i = e then none else st1.cleanup i }) with
          | ok st3 =>
            rw [hbody] at hres
            obtain ⟨tl, htl⟩ :=
              ih (Task.acts (env e).body)
                (pushRun e { st1 with cleanup := fun i => if i = e then none else st1.cleanup i })
                st3 (by rw [hbody]; rfl)
            have htl' : st3.trace = (st1.trace ++ [Ev.runEv e]) ++ tl := htl
            simp only [wrapPost, R.state?, Option.some.injEq] at hres
            subst hres
            have htr3 : st3.trace =
                st.trace ++ (Ev.cleanupEv e c0 :: (tlc ++ Ev.runEv e :: tl)) := by
              rw [htl', htlc']
              simp
            by_cases hrc : (env e).retCleanup = true
            · simp only [hrc, if_true]
              exact ⟨Ev.cleanupEv e c0 :: (tlc ++ Ev.runEv e :: tl), htr3⟩
            · simp only [hrc, if_false]
              exact ⟨Ev.cleanupEv e c0 :: (tlc ++ Ev.runEv e :: tl), htr3⟩
          | ex st3 =>
            rw [hbody] at hres
            simp only [wrapPost, R.state?, Option.some.injEq] at hres
            subst hres
            obtain ⟨tl, htl⟩ :=
              ih (Task.acts (env e).body)
                (pushRun e { st1 with cleanup := fun i => if i = e then none else st1.cleanup i })
                st3 (by rw [hbody]; rfl)
            have htl' : st3.trace = (st1.trace ++ [Ev.runEv e]) ++ tl := htl
            exact ⟨Ev.cleanupEv e c0 :: (tlc ++ Ev.runEv e :: tl), by rw [htl', htlc']; simp⟩
          | oom =>
            rw [hbody] at hres
            cases hres
        | ex st1 =>
          rw [hcu] at hres
          simp only [R.state?, Option.some.injEq] at hres
          subst hres
          obtain ⟨tlc, htlc⟩ :=
            ih (Task.acts (env e).cleanupBody)
              { st with trace := st.trace ++ [Ev.cleanupEv e c0] } st1
              (by rw [hcu]; rfl)
          have htlc' : st1.trace = (st.trace ++ [Ev.cleanupEv e c0]) ++ tlc := htlc
          exact ⟨Ev.cleanupEv e c0 :: tlc, by rw [htlc']; simp⟩
        | oom =>
          rw [hcu] at hres
          cases hres
    | .acts (.readS s :: rest) =>
      rw [exec.eq_4] at hres
      cases hh : st.stack.head? with
      | none =>
        simp only [hh] at hres
        exact ih (Task.acts rest) st st' hres
      | some e0 =>
        simp only [hh] at hres
        exact ih (Task.acts rest)
          { st with subs := fun t => if t = s then addSub (st.subs s) e0 else st.subs t } st'
          hres
    | .acts (.writeS s v :: rest) =>
      rw [exec.eq_5] at hres
      by_cases hv : st.values s = v
      · simp only [if_pos hv] at hres
        exact ih _ _ _ hres
      · simp only [if_neg hv] at hres
        cases hn : exec env f (.notif s 0)
            { st with values := fun t => if t = s then v else st.values t } with
        | ok stM =>
          rw [hn] at hres
          obtain ⟨tl1, htl1⟩ :=
            ih (Task.notif s 0)
              { st with values := fun t => if t = s then v else st.values t } stM
              (by rw [hn]; rfl)
          obtain ⟨tl2, htl2⟩ := ih _ _ _ hres
          exact ⟨tl1 ++ tl2, by rw [htl2, htl1, List.append_assoc]⟩
        | ex stM =>
          rw [hn] at hres
          obtain rfl : stM = st' := by simpa [R.state?] using hres
          exact ih (Task.notif s 0)
            { st with values := fun t => if t = s then v else st.values t } stM
            (by rw [hn]; rfl)
        | oom =>
          rw [hn] at hres
          cases hres
    | .acts (.thro :: rest) =>
      rw [exec.eq_6] at hres
      cases hres
      exact ⟨[], by simp⟩
    | .acts (.crea e :: rest) =>
      rw [exec.eq_7] at hres
      cases hn : exec env f (.wrapped e)
          { st with cleanup := fun i => if i = e then none else st.cleanup i } with
      | ok stM =>
        rw [hn] at hres
        obtain ⟨tl1, htl1⟩ :=
          ih (Task.wrapped e)
            { st with cleanup := fun i => if i = e then none else st.cleanup i } stM
            (by rw [hn]; rfl)
        obtain ⟨tl2, htl2⟩ := ih _ _ _ hres
        exact ⟨tl1 ++ tl2, by rw [htl2, htl1, List.append_assoc]⟩
      | ex stM =>
        rw [hn] at hres
        obtain rfl : stM = st' := by simpa [R.state?] using hres
        exact ih (Task.wrapped e)
          { st with cleanup := fun i => if i = e then none else st.cleanup i } stM
          (by rw [hn]; rfl)
      | oom =>
        rw [hn] at hres
        cases hres
    | .notif s i =>
      rw [exec.eq_8] at hres
      by_cases hi : i < (st.subs s).length
      · rw [dif_pos hi] at hres
        cases hn : exec env f (.wrapped ((st.subs s).get ⟨i, hi⟩)) st with
        | ok stM =>
          rw [hn] at hres
          obtain ⟨tl1, htl1⟩ :=
            ih (Task.wrapped ((st.subs s).get ⟨i, hi⟩)) st stM (by rw [hn]; rfl)
          obtain ⟨tl2, htl2⟩ := ih _ _ _ hres
          exact ⟨tl1 ++ tl2, by rw [htl2, htl1, List.append_assoc]⟩
        | ex stM =>
          rw [hn] at hres
          obtain rfl : stM = st' := by simpa [R.state?] using hres
          exact ih (Task.wrapped ((st.subs s).get ⟨i, hi⟩)) st stM (by rw [hn]; rfl)
        | oom =>
          rw [hn] at hres
          cases hres
      · rw [dif_neg hi] at hres
        cases hres
        exact ⟨[], by simp⟩

/-- Inversion of a pure read run: when a list of getter calls completes
normally, the final state is exactly the readStep fold of the initial
state, whatever fuel was used. -/
theorem exec_reads_inv {V : Type} [DecidableEq V] (env : Nat → EffDef V)
    (rds : List Nat) :
    ∀ (f : Nat) (st stc : St V),
      exec env f (.acts (rds.map Act.readS)) st = .ok stc →
      stc = applyReads st rds := by
  induction rds with
  | nil =>
    intro f st stc h
    cases f with
    | zero =>
      rw [show exec env 0 (.acts (List.map Act.readS [])) st = .ok st from rfl] at h
      cases h
      rfl
    | succ g =>
      rw [show exec env (g+1) (.acts (List.map Act.readS [])) st = .ok st from rfl] at h
      cases h
      rfl
  | cons s rest ih =>
    intro f st stc h
    cases f with
    | zero => cases h
    | succ g =>
      rw [List.map_cons, exec.eq_4] at h
      rw [applyReads]
      exact ih g (readStep st s) stc h

/-- Environment refuting the original claim C3: effect 0 reads signal 0
and returns a cleanup, and that cleanup writes the value 1 into signal 0.
This models createEffect of a function that subscribes to a signal and
returns a cleanup calling the setter of the same signal. -/
def envC3 : Nat → EffDef Int := fun _ => ⟨[Act.readS 0], true, [Act.writeS 0 1]⟩

/-- Initial state for the refutation: effect 0 is subscribed to signal 0
and holds stored cleanup 0 from its previous run; the id counter is past
that id. -/
def stC3 : St Int :=
  ⟨fun _ => 0, fun s => if s = 0 then [0] else [],
    fun i => if i = 0 then some 0 else none, 1, [], []⟩

/-- Counterexample to claim C3 as stated: when the stored cleanup itself
writes a subscribed signal, the setter call inside the cleanup re-enters
the effect before the slot is cleared — core.ts clears ctx.cleanup only
after ctx.cleanup() returns — so the very same stored cleanup runs a
second time.  The run terminates normally and its trace records cleanup
generation 0 of effect 0 invoked exactly twice, refuting that a stored
cleanup is invoked exactly once and never invoked again afterwards. -/
theorem cleanup_double_invocation_counterexample :
    ∃ st', setSig envC3 12 0 2 stC3 = .ok st' ∧
      st'.trace = [Ev.cleanupEv 0 0, Ev.cleanupEv 0 0, Ev.runEv 0, Ev.runEv 0] ∧
      st'.trace.count (Ev.cleanupEv 0 0) = 2 :=
  ⟨_, rfl, rfl, rfl⟩

/-- Claim C3 (amended): re-running an effect whose previous run stored a
cleanup first invokes that cleanup, recording the invocation before this
run's body-start event, and clears the slot only after the cleanup call
returns, exactly as in the source; when the cleanup call completes
normally the body then runs with the slot empty and the invocation stands
strictly before the body-start event in the trace.  When the stored
cleanup performs only signal reads — so that it cannot re-enter the
setter — it is invoked exactly once: the rest of the run, normal or
exceptional, never records another invocation of that cleanup generation.
The unconditional exactly-once reading is refuted separately: a cleanup
writing a subscribed signal re-enters the effect while the slot still
holds it and runs a second time. -/
theorem cleanup_before_rerun_amended {V : Type} [DecidableEq V]
    (env : Nat → EffDef V) (f e c : Nat) (st stc : St V)
    (hcl : st.cleanup e = some c)
    (hc : exec env f (.acts (env e).cleanupBody)
      { st with trace := st.trace ++ [Ev.cleanupEv e c] } = .ok stc) :
    exec env (f+1) (.wrapped e) st =
      wrapPost env e (exec env f (.acts (env e).body)
        (pushRun e { stc with cleanup := fun i => if i = e then none else stc.cleanup i })) ∧
    (pushRun e { stc with cleanup := fun i => if i = e then none else stc.cleanup i }).cleanup e
      = none ∧
    (∃ tlc, (pushRun e
        { stc with cleanup := fun i => if i = e then none else stc.cleanup i }).trace
      = st.trace ++ Ev.cleanupEv e c :: (tlc ++ [Ev.runEv e])) ∧
    (∀ cl : List Nat, (env e).cleanupBody = List.map Act.readS cl →
      c < st.nextCl → (∀ i, st.cleanup i = some c → i = e) →
      ∀ st', (exec env (f+1) (.wrapped e) st).state? = some st' →
        ∃ tl, st'.trace = st.trace ++ Ev.cleanupEv e c :: Ev.runEv e :: tl ∧
          ∀ e', Ev.cleanupEv e' c ∉ tl) := by
  refine ⟨?_, ?_, ?_, ?_⟩
  · rw [exec.eq_3, hcl]
    dsimp only
    rw [hc]
  · show (if e = e then none else stc.cleanup e) = none
    simp
  · obtain ⟨tlc, htlc⟩ := exec_trace_mono env f (.acts (env e).cleanupBody)
      { st with trace := st.trace ++ [Ev.cleanupEv e c] } stc (by rw [hc]; rfl)
    have htlc' : stc.trace = (st.trace ++ [Ev.cleanupEv e c]) ++ tlc := htlc
    refine ⟨tlc, ?_⟩
    show stc.trace ++ [Ev.runEv e] = _
    rw [htlc']
    simp
  · intro cl hbody hlt huniq st' hres
    rw [hbody] at hc
    have hstc : stc = applyReads { st with trace := st.trace ++ [Ev.cleanupEv e c] } cl :=
      exec_reads_inv env cl f _ stc hc
    have hn : stc.nextCl = st.nextCl := by rw [hstc, applyReads_nextCl]
    have hcm : stc.cleanup = st.cleanup := by rw [hstc, applyReads_cleanup]
    have htr : stc.trace = st.trace ++ [Ev.cleanupEv e c] := by rw [hstc, applyReads_trace]
    have hp1 : c < (pushRun e
        { stc with cleanup := fun i => if i = e then none else stc.cleanup i }).nextCl := by
      show c < stc.nextCl
      rw [hn]
      exact hlt
    have hp2 : ∀ i, (pushRun e
        { stc with cleanup := fun i => if i = e then none else stc.cleanup i }).cleanup i
        ≠ some c := by
      intro i
      show (if i = e then none else stc.cleanup i) ≠ some c
      by_cases hie : i = e
      · simp [hie]
      · rw [if_neg hie, hcm]
        intro hcon
        exact hie (huniq i hcon)
    rw [exec.eq_3] at hres
    rw [hcl] at hres
    dsimp only at hres
    rw [hbody] at hres
    rw [hc] at hres
    dsimp only at hres
    cases hbody2 : exec env f (.acts (env e).body)
        (pushRun e { stc with cleanup := fun i => if i = e then none else stc.cleanup i }) with
    | ok st3 =>
      rw [hbody2] at hres
      obtain ⟨m1, m2, tl, htl, hclean⟩ :=
        exec_cleanFor env c f (.acts (env e).body)
          (pushRun e { stc with cleanup := fun i => if i = e then none else stc.cleanup i })
          st3 hp1 hp2 (by rw [hbody2]; rfl)
      simp only [wrapPost, R.state?, Option.some.injEq] at hres
      subst hres
      have htl' : st3.trace = (stc.trace ++ [Ev.runEv e]) ++ tl := htl
      refine ⟨tl, ?_, fun e' => hclean e'⟩
      by_cases hrc : (env e).retCleanup = true
      · simp only [hrc, if_true]
        show st3.trace = _
        rw [htl', htr]
        simp
      · simp only [hrc, if_false]
        show st3.trace = _
        rw [htl', htr]
        simp
    | ex st3 =>
      rw [hbody2] at hres
      simp only [wrapPost, R.state?, Option.some.injEq] at hres
      subst hres
      obtain ⟨m1, m2, tl, htl, hclean⟩ :=
        exec_cleanFor env c f (.acts (env e).body)
          (pushRun e { stc with cleanup := fun i => if i = e then none else stc.cleanup i })
          st3 hp1 hp2 (by rw [hbody2]; rfl)
      have htl' : st3.trace = (stc.trace ++ [Ev.runEv e]) ++ tl := htl
      refine ⟨tl, ?_, fun e' => hclean e'⟩
      rw [htl', htr]
      simp
    | oom =>
      rw [hbody2] at hres
      cases hres


/-- Environment for the cleanup witness: one effect with an empty body
returning no cleanup. -/
def wEnv3 : Nat → EffDef Int := fun _ => ⟨[], false, []⟩

/-- State for the cleanup witness: effect 0 holds stored cleanup 0 and the
allocation counter is past it. -/
def wSt3 : St Int :=
  ⟨fun _ => 0, fun _ => [], fun i => if i = 0 then some 0 else none, 1, [], []⟩

/-- Witness for cleanup_before_rerun_amended: effect 0 with an empty,
read-only cleanup body re-run from wSt3 records the stored cleanup invoked
once, right before the run event, and never recorded again. -/
theorem cleanup_before_rerun_amended_witness :
    (wSt3.cleanup 0 = some 0) ∧
    ((wEnv3 0).cleanupBody = List.map Act.readS []) ∧
    (∀ st', (exec wEnv3 1 (.wrapped 0) wSt3).state? = some st' →
      ∃ tl, st'.trace = wSt3.trace ++ Ev.cleanupEv 0 0 :: Ev.runEv 0 :: tl ∧
        ∀ e', Ev.cleanupEv e' 0 ∉ tl) :=
  ⟨rfl, rfl,
    (cleanup_before_rerun_amended wEnv3 0 0 0 wSt3
        { wSt3 with trace := wSt3.trace ++ [Ev.cleanupEv 0 0] } rfl rfl).2.2.2
      [] rfl (by decide) (by
        intro i h
        by_cases hi : i = 0
        · exact hi
        · simp [wSt3, hi] at h)⟩

end Reactive

namespace Reactive

/-- Stack discipline of the interpreter: a run that completes normally
restores the effect stack it started from, while a run that ends in an
uncaught exception leaves zero or more contexts pushed on top of it,
because the pop in the wrapped closure is skipped on the exceptional
path. -/
theorem exec_stack {V : Type} [DecidableEq V] (env : Nat → EffDef V) :
    ∀ (f : Nat) (t : Task V) (st st' : St V),
      (exec env f t st = .ok st' → st'.stack = st.stack) ∧
      (exec env f t st = .ex st' → ∃ q, st'.stack = q ++ st.stack) := by
  intro f
  induction f with
  | zero =>
    intro t st st' 
    match t with
    | .acts [] =>
      constructor
      · intro h
        cases h
        rfl
      · intro h
        cases h
    | .acts (a :: l) => refine ⟨fun h => ?_, fun h => ?_⟩ <;> cases h
    | .wrapped e => refine ⟨fun h => ?_, fun h => ?_⟩ <;> cases h
    | .notif s i => refine ⟨fun h => ?_, fun h => ?_⟩ <;> cases h
  | succ f ih =>
    intro t st st' 
    match t with
    | .acts [] =>
      constructor
      · intro h
        cases h
        rfl
      · intro h
        cases h
    | .wrapped e =>
      rw [exec.eq_3]
      cases hcl : st.cleanup e with
      | none =>
        dsimp only
        cases hbody : exec env f (.acts (env e).body) (pushRun e st) with
        | ok st3 =>
          constructor
          · intro h
            simp only [wrapPost, R.ok.injEq] at h
            subst h
            have h3 : st3.stack = (pushRun e st).stack := (ih _ _ _).1 hbody
            rw [pushRun_stack] at h3
            by_cases hrc : (env e).retCleanup = true <;>
              simp only [hrc, if_true, if_false] <;>
              · show st3.stack.tail = st.stack
                rw [h3, List.tail_cons]
          · intro h
            simp only [wrapPost] at h
            cases h
        | ex st3 =>
          constructor
          · intro h
            simp only [wrapPost] at h
            cases h
          · intro h
            simp only [wrapPost, R.ex.injEq] at h
            subst h
            obtain ⟨q, hq⟩ := (ih _ _ _).2 hbody
            rw [pushRun_stack] at hq
            exact ⟨q ++ [e], by rw [hq]; simp⟩
        | oom =>
          constructor
          · intro h
            simp only [wrapPost] at h
            cases h
          · intro h
            simp only [wrapPost] at h
            cases h
      | some c0 =>
        dsimp only
        cases hcu : exec env f (.acts (env e).cleanupBody)
            { st with trace := st.trace ++ [Ev.cleanupEv e c0] } with
        | ok st1 =>
          dsimp only
          have h1s : st1.stack = st.stack :=
            (ih (Task.acts (env e).cleanupBody)
              { st with trace := st.trace ++ [Ev.cleanupEv e c0] } st1).1 hcu
          cases hbody : exec env f (.acts (env e).body)
              (pushRun e { st1 with cleanup := fun i => if i = e then none else st1.cleanup i }) with
          | ok st3 =>
            constructor
            · intro h
              simp only [wrapPost, R.ok.injEq] at h
              subst h
              have h3 : st3.stack = e :: st1.stack := (ih _ _ _).1 hbody
              rw [h1s] at h3
              by_cases hrc : (env e).retCleanup = true <;>
                simp only [hrc, if_true, if_false] <;>
                · show st3.stack.tail = st.stack
                  rw [h3, List.tail_cons]
            · intro h
              simp only [wrapPost] at h
              cases h
          | ex st3 =>
            constructor
            · intro h
              simp only [wrapPost] at h
              cases h
            · intro h
              simp only [wrapPost, R.ex.injEq] at h
              subst h
              obtain ⟨q, hq⟩ :=
                (ih (Task.acts (env e).body)
                  (pushRun e { st1 with cleanup := fun i => if i = e then none else st1.cleanup i })
                  st3).2 hbody
              have hq' : st3.stack = q ++ e :: st1.stack := hq
              rw [h1s] at hq'
              exact ⟨q ++ [e], by rw [hq']; simp⟩
          | oom =>
            constructor
            · intro h
              cases h
            · intro h
              cases h
        | ex st1 =>
          dsimp only
          constructor
          · intro h
            cases h
          · intro h
            cases h
            exact (ih (Task.acts (env e).cleanupBody)
              { st with trace := st.trace ++ [Ev.cleanupEv e c0] } st').2 hcu
        | oom =>
          dsimp only
          constructor
          · intro h
            cases h
          · intro h
            cases h
    | .acts (.readS s :: rest) =>
      rw [exec.eq_4]
      cases hh : st.stack.head? with
      | none => exact ih (Task.acts rest) st st'
      | some e0 =>
        have hsub := ih (Task.acts rest)
          { st with subs := fun t => if t = s then addSub (st.subs s) e0 else st.subs t } st'
        exact hsub
    | .acts (.writeS s v :: rest) =>
      rw [exec.eq_5]
      by_cases hv : st.values s = v
      · simp only [if_pos hv]
        exact ih (Task.acts rest) st st'
      · simp only [if_neg hv]
        cases hn : exec env f (.notif s 0)
            { st with values := fun t => if t = s then v else st.values t } with
        | ok stm =>
          have h1 : stm.stack = st.stack :=
            (ih (Task.notif s 0)
              { st with values := fun t => if t = s then v else st.values t } stm).1 hn
          constructor
          · intro h
            have h2 : st'.stack = stm.stack := (ih (Task.acts rest) stm st').1 h
            rw [h2, h1]
          · intro h
            obtain ⟨q, hq⟩ := (ih (Task.acts rest) stm st').2 h
            exact ⟨q, by rw [hq, h1]⟩
        | ex stm =>
          constructor
          · intro h
            cases h
          · intro h
            cases h
            obtain ⟨q, hq⟩ := (ih (Task.notif s 0)
              { st with values := fun t => if t = s then v else st.values t } st').2 hn
            exact ⟨q, hq⟩
        | oom =>
          constructor
          · intro h
            cases h
          · intro h
            cases h
    | .acts (.thro :: rest) =>
      rw [exec.eq_6]
      constructor
      · intro h
        cases h
      · intro h
        cases h
        exact ⟨[], rfl⟩
    | .acts (.crea e :: rest) =>
      rw [exec.eq_7]
      cases hn : exec env f (.wrapped e)
          { st with cleanup := fun i => if i = e then none else st.cleanup i } with
      | ok stm =>
        have h1 : stm.stack = st.stack :=
          (ih (Task.wrapped e)
            { st with cleanup := fun i => if i = e then none else st.cleanup i } stm).1 hn
        constructor
        · intro h
          have h2 : st'.stack = stm.stack := (ih (Task.acts rest) stm st').1 h
          rw [h2, h1]
        · intro h
          obtain ⟨q, hq⟩ := (ih (Task.acts rest) stm st').2 h
          exact ⟨q, by rw [hq, h1]⟩
      | ex stm =>
        constructor
        · intro h
          cases h
        · intro h
          cases h
          obtain ⟨q, hq⟩ := (ih (Task.wrapped e)
            { st with cleanup := fun i => if i = e then none else st.cleanup i } st').2 hn
          exact ⟨q, hq⟩
      | oom =>
        constructor
        · intro h
          cases h
        · intro h
          cases h
    | .notif s i =>
      rw [exec.eq_8]
      by_cases hi : i < (st.subs s).length
      · rw [dif_pos hi]
        cases hn : exec env f (.wrapped ((st.subs s).get ⟨i, hi⟩)) st with
        | ok stm =>
          have h1 : stm.stack = st.stack :=
            (ih (Task.wrapped ((st.subs s).get ⟨i, hi⟩)) st stm).1 hn
          constructor
          · intro h
            have h2 : st'.stack = stm.stack := (ih (Task.notif s (i+1)) stm st').1 h
            rw [h2, h1]
          · intro h
            obtain ⟨q, hq⟩ := (ih (Task.notif s (i+1)) stm st').2 h
            exact ⟨q, by rw [hq, h1]⟩
        | ex stm =>
          constructor
          · intro h
            cases h
          · intro h
            cases h
            exact (ih (Task.wrapped ((st.subs s).get ⟨i, hi⟩)) st st').2 hn
        | oom =>
          constructor
          · intro h
            cases h
          · intro h
            cases h
      · rw [dif_neg hi]
        constructor
        · intro h
          cases h
          rfl
        · intro h
          cases h


/-- Environment with a single effect whose body throws. -/
def envThrow : Nat → EffDef Int := fun _ => ⟨[Act.thro], false, []⟩

/-- A fresh reactive state with no subscribers and an empty effect stack. -/
def stW0 : St Int := ⟨fun _ => 0, fun _ => [], fun _ => none, 0, [], []⟩

/-- Counterexample to claim C4 as stated: creating an effect whose body
throws propagates the exception, and the effect context is NOT popped from
the effect stack — the stack ends as the singleton of that context rather
than empty, because the wrapped closure has no try or finally around the
body call.  The claim asserted the pop happens on every exit, including a
throwing body. -/
theorem effect_stack_throw_counterexample :
    ∃ st', createEffect envThrow 5 0 stW0 = R.ex st' ∧
      st'.stack = [0] ∧ st'.stack ≠ [] :=
  ⟨_, rfl, rfl, by decide⟩

/-- Claim C4 (amended): the effect context is pushed on entry to the body
(the body runs in a state whose effect stack has the context on top, and
the active-effect lookup returns the top of the stack, hence the innermost
running effect, including for effects created inside another run); a run
that completes normally pops the stack back to exactly what it was (strict
LIFO discipline); on an exceptional exit contexts may stay pushed, and
when the exception arises after the push — with no stored cleanup, or a
stored cleanup stage completing normally — the entered context itself
remains on the stack, because the pop in the wrapped closure is skipped.
An exception raised by the stored cleanup itself propagates before the
push, so only the general stack-extension form holds for it. -/
theorem effect_stack_discipline_amended {V : Type} [DecidableEq V]
    (env : Nat → EffDef V) :
    (∀ (f : Nat) (t : Task V) (st st' : St V),
      exec env f t st = .ok st' → st'.stack = st.stack) ∧
    (∀ (f : Nat) (t : Task V) (st st' : St V),
      exec env f t st = .ex st' → ∃ q, st'.stack = q ++ st.stack) ∧
    (∀ (f e : Nat) (st st' : St V), st.cleanup e = none →
      exec env (f+1) (.wrapped e) st = .ex st' →
        ∃ q, st'.stack = q ++ e :: st.stack) ∧
    (∀ (f e c : Nat) (st stc st' : St V), st.cleanup e = some c →
      exec env f (.acts (env e).cleanupBody)
        { st with trace := st.trace ++ [Ev.cleanupEv e c] } = .ok stc →
      exec env (f+1) (.wrapped e) st = .ex st' →
        ∃ q, st'.stack = q ++ e :: st.stack) ∧
    (∀ (st : St V) (e : Nat) (tl : List Nat),
      st.stack = e :: tl → getActiveEffect st = some e) ∧
    (∀ (f e : Nat) (st : St V), st.cleanup e = none →
      exec env (f+1) (.wrapped e) st =
        wrapPost env e (exec env f (.acts (env e).body) (pushRun e st))) ∧
    (∀ (e : Nat) (st : St V), (pushRun e st).stack = e :: st.stack ∧
      getActiveEffect (pushRun e st) = some e) := by
  refine ⟨?_, ?_, ?_, ?_, ?_, ?_, ?_⟩
  · intro f t st st' h
    exact (exec_stack env f t st st').1 h
  · intro f t st st' h
    exact (exec_stack env f t st st').2 h
  · intro f e st st' hnone h
    rw [exec.eq_3] at h
    rw [hnone] at h
    dsimp only at h
    cases hbody : exec env f (.acts (env e).body) (pushRun e st) with
    | ok st3 =>
      rw [hbody] at h
      simp only [wrapPost] at h
      cases h
    | ex st3 =>
      rw [hbody] at h
      simp only [wrapPost, R.ex.injEq] at h
      subst h
      obtain ⟨q, hq⟩ := (exec_stack env f _ _ _).2 hbody
      exact ⟨q, hq⟩
    | oom =>
      rw [hbody] at h
      simp only [wrapPost] at h
      cases h
  · intro f e c st stc st' hcl hc h
    rw [exec.eq_3] at h
    rw [hcl] at h
    dsimp only at h
    rw [hc] at h
    dsimp only at h
    have hstc : stc.stack = st.stack :=
      (exec_stack env f (Task.acts (env e).cleanupBody)
        { st with trace := st.trace ++ [Ev.cleanupEv e c] } stc).1 hc
    cases hbody : exec env f (.acts (env e).body)
        (pushRun e { stc with cleanup := fun i => if i = e then none else stc.cleanup i }) with
    | ok st3 =>
      rw [hbody] at h
      simp only [wrapPost] at h
      cases h
    | ex st3 =>
      rw [hbody] at h
      simp only [wrapPost, R.ex.injEq] at h
      subst h
      obtain ⟨q, hq⟩ := (exec_stack env f _ _ _).2 hbody
      have hq' : st3.stack = q ++ e :: stc.stack := hq
      rw [hstc] at hq'
      exact ⟨q, hq'⟩
    | oom =>
      rw [hbody] at h
      simp only [wrapPost] at h
      cases h
  · intro st e tl h
    rw [getActiveEffect, h]
  · intro f e st hnone
    rw [exec.eq_3, hnone]
  · intro e st
    exact ⟨rfl, rfl⟩

/-- Witness for effect_stack_discipline_amended: a throwing body of an
effect with no stored cleanup leaves its context on the stack,
concretely. -/
theorem effect_stack_discipline_amended_witness :
    (stW0.cleanup 0 = none) ∧
    ∃ st', exec envThrow 5 (Task.wrapped 0) stW0 = R.ex st' ∧
      ∃ q, st'.stack = q ++ 0 :: stW0.stack :=
  ⟨rfl, _, rfl,
    (effect_stack_discipline_amended envThrow).2.2.1 4 0 stW0 _ rfl rfl⟩

/-- Environment with a single effect whose body is empty and whose stored
cleanup throws. -/
def envCleanupThrow : Nat → EffDef Int := fun _ => ⟨[], false, [Act.thro]⟩

/-- An exception raised by the stored cleanup itself propagates before the
context is pushed: the effect stack comes back unchanged, only the
invocation event was recorded, and the slot still holds the cleanup (the
clearing assignment after the call is never reached).  This is why the
retention of the entered context on an exceptional exit is scoped to
exceptions arising after the cleanup stage. -/
theorem wrapped_cleanup_throw_no_push :
    ∃ st', exec envCleanupThrow 5 (Task.wrapped 0) wSt3 = R.ex st' ∧
      st'.stack = wSt3.stack ∧
      st'.trace = wSt3.trace ++ [Ev.cleanupEv 0 0] ∧
      st'.cleanup 0 = some 0 :=
  ⟨_, rfl, rfl, rfl, rfl⟩

end Reactive

/-!
The template system of core.ts is embedded over an explicit DOM heap:
nodes are numbers, and the heap maps each node to its kind, child list,
parent, attributes and dynamically assigned properties.  JavaScript
runtime values that flow through bindings are a variant type JsVal;
callables are represented by their observable behaviour (return a value,
or throw).  The browser HTML parser is an uninterpreted parameter
producing pure trees that are instantiated into the heap.
-/

namespace Tmpl

/-- JavaScript values flowing through template bindings: a DOM node
reference, a string, a number, a boolean, a callable that returns a value
when invoked, a callable that throws when invoked, or any other value. -/
inductive JsVal where
  | vnode (id : Nat)
  | vstr (s : String)
  | vnum (n : Int)
  | vbool (b : Bool)
  | vfunRet (v : JsVal)
  | vfunThr
  | vundef
deriving DecidableEq

/-- The typeof-function test. -/
def isFunction : JsVal → Bool
  | .vfunRet _ => true
  | .vfunThr => true
  | _ => false

/-- Invoking a value: a callable either returns its result or throws;
invoking a non-callable throws a TypeError. -/
def callFn : JsVal → Except Unit JsVal
  | .vfunRet v => .ok v
  | .vfunThr => .error ()
  | _ => .error ()

/-- The instanceof-Node test: node references are DOM nodes (this includes
document fragments, whose constructor extends Node). -/
def instanceofNodeV : JsVal → Bool
  | .vnode _ => true
  | _ => false

/-- The typeof-string test. -/
def isStringV : JsVal → Bool
  | .vstr _ => true
  | _ => false

/-- The typeof-number test. -/
def isNumberV : JsVal → Bool
  | .vnum _ => true
  | _ => false

/-- The body of the try block of resolveValue from core.ts: when the raw
value is callable invoke it, and return the result whether or not it is a
node, string or number (both branches of the inner test return it);
otherwise return the raw value.  An exception raised by the invocation
escapes this body. -/
def resolveTry (raw : JsVal) : Except Unit JsVal :=
  if isFunction raw then
    match callFn raw with
    | .ok result =>
      if instanceofNodeV result || isStringV result || isNumberV result then
        .ok result
      else
        .ok result
    | .error e => .error e
  else
    .ok raw

/-- resolveValue from core.ts: run the try body; any exception is caught
and the raw value is returned in its place. -/
def resolveValue (raw : JsVal) : JsVal :=
  match resolveTry raw with
  | .ok v => v
  | .error _ => raw

/-- DOM node kinds: element with a tag, text node, comment node, document
fragment, or unallocated. -/
inductive NKind where
  | elem (tag : String)
  | text (s : String)
  | comment (s : String)
  | frag
  | free
deriving DecidableEq

/-- The DOM heap: an allocation counter and, for every node number, its
kind, child list, parent, attribute list and property table. -/
structure Dom where
  next : Nat
  kind : Nat → NKind
  children : Nat → List Nat
  parent : Nat → Option Nat
  attrs : Nat → List (String × String)
  props : Nat → String → Option JsVal

/-- Allocate a fresh node of the given kind with the given attributes. -/
def allocNode (dom : Dom) (k : NKind) (as : List (String × String)) : Nat × Dom :=
  (dom.next,
   { dom with
     next := dom.next + 1,
     kind := fun i => if i = dom.next then k else dom.kind i,
     attrs := fun i => if i = dom.next then as else dom.attrs i,
     children := fun i => if i = dom.next then [] else dom.children i,
     parent := fun i => if i = dom.next then none else dom.parent i })

/-- document.createTextNode. -/
def createTextNode (dom : Dom) (s : String) : Nat × Dom :=
  allocNode dom (.text s) []

/-- document.createElement. -/
def createElement (dom : Dom) (tag : String) : Nat × Dom :=
  allocNode dom (.elem tag) []

/-- Remove a node from the child list of its parent, if any. -/
def detach (dom : Dom) (n : Nat) : Dom :=
  match dom.parent n with
  | some p =>
    { dom with
      children := fun i => if i = p then (dom.children p).filter (fun c => c ≠ n) else dom.children i,
      parent := fun i => if i = n then none else dom.parent i }
  | none => dom

/-- Replace the first occurrence of old in a child list by a replacement
list (splicing). -/
def replaceOne : List Nat → Nat → List Nat → List Nat
  | [], _, _ => []
  | x :: xs, old, repl => if x = old then repl ++ xs else x :: replaceOne xs old repl

/-- parent.replaceChild(newNode, oldChild) with DOM semantics: when the new
node is a document fragment its children are spliced in place of the old
child and the fragment is emptied; otherwise the new node is moved out of
its current parent and put in place of the old child. -/
def replaceChild (dom : Dom) (p newN oldC : Nat) : Dom :=
  match dom.kind newN with
  | .frag =>
    let ks := dom.children newN
    { dom with
      children := fun i =>
        if i = newN then []
        else if i = p then replaceOne (dom.children p) oldC ks
        else dom.children i,
      parent := fun i =>
        if ks.contains i then some p
        else if i = oldC then none
        else dom.parent i }
  | _ =>
    let dom1 := detach dom newN
    { dom1 with
      children := fun i =>
        if i = p then replaceOne (dom1.children p) oldC [newN] else dom1.children i,
      parent := fun i =>
        if i = newN then some p
        else if i = oldC then none
        else dom1.parent i }

/-- parent.appendChild(child) with DOM semantics: appending a document
fragment moves its children; appending any other node moves the node. -/
def appendChild (dom : Dom) (p c : Nat) : Dom :=
  match dom.kind c with
  | .frag =>
    let ks := dom.children c
    { dom with
      children := fun i =>
        if i = c then []
        else if i = p then dom.children p ++ ks
        else dom.children i,
      parent := fun i => if ks.contains i then some p else dom.parent i }
  | _ =>
    let dom1 := detach dom c
    { dom1 with
      children := fun i => if i = p then dom1.children p ++ [c] else dom1.children i,
      parent := fun i => if i = c then some p else dom1.parent i }

/-- The four binding kinds of the template engine. -/
inductive BType where
  | attribute
  | event
  | property
  | text
deriving DecidableEq

/-- A binding descriptor: ordinal index into the interpolated values, key
(attribute, property or event name; empty for text), binding kind, current
target node, and the currently attached event handler reference. -/
structure Binding where
  index : Nat
  key : String
  btype : BType
  node : Nat
  eventHandler : Option Nat := none

/-- The fixed set of recognized DOM event attribute names from core.ts. -/
def DOM_EVENTS : List String :=
  ["onblur", "onchange", "onclick", "oncontextmenu", "ondblclick",
   "onfocus", "oninput", "onkeydown", "onkeypress", "onkeyup", "onload",
   "onmousedown", "onmousemove", "onmouseout", "onmouseover", "onmouseup",
   "onresize", "onscroll", "onsubmit", "onunload"]

/-- The fixed set of recognized DOM property names from core.ts. -/
def DOM_PROPS : List String :=
  ["checked", "defaultChecked", "defaultSelected", "defaultValue",
   "disabled", "hidden", "innerHTML", "innerText", "readOnly", "required",
   "selected", "textContent", "value"]

/-- Determines if an attribute is a DOM event. -/
def isEventAttribute (attr : String) : Bool := DOM_EVENTS.contains attr

/-- Determines if an attribute is a DOM property. -/
def isPropAttribute (attr : String) : Bool := DOM_PROPS.contains attr

/-- getBindingType from core.ts. -/
def getBindingType (attr : String) : BType :=
  if isEventAttribute attr then .event
  else if isPropAttribute attr then .property
  else .attribute

/-- The string form used when a string or number is inserted as text. -/
def jsString : JsVal → String
  | .vstr s => s
  | .vnum n => toString n
  | _ => ""

/-- The node number behind a node reference value. -/
def nodeIdOf : JsVal → Nat
  | .vnode i => i
  | _ => 0

/-- The instanceof-DocumentFragment test against the heap. -/
def instanceofFragV (dom : Dom) : JsVal → Bool
  | .vnode id => dom.kind id = NKind.frag
  | _ => false

/-- The node selection chain of applyTextBinding from core.ts, in source
order: a DOM node is used directly; a string or number becomes a fresh
text node of its string form; a document fragment would be wrapped in a
span element; any other value becomes an empty text node.  Because every
document fragment passes the instanceof-Node test, the third branch is
unreachable. -/
def chooseTextNode (dom : Dom) (v : JsVal) : Nat × Dom :=
  if instanceofNodeV v then (nodeIdOf v, dom)
  else if isStringV v || isNumberV v then createTextNode dom (jsString v)
  else if instanceofFragV dom v then
    let (w, d1) := createElement dom "span"
    let d2 := appendChild d1 w (nodeIdOf v)
    (w, d2)
  else createTextNode dom ""

/-- applyTextBinding from core.ts: a no-op when the tracked node has no
parent; otherwise choose the replacement node from the value, swap it for
the tracked node via the parent, and update the descriptor. -/
def applyTextBinding (dom : Dom) (b : Binding) (v : JsVal) : Dom × Binding :=
  match dom.parent b.node with
  | none => (dom, b)
  | some p =>
    let (n, d) := chooseTextNode dom v
    (replaceChild d p n b.node, { b with node := n })

/-- applyPropertyBinding from core.ts: assign the value, as given, to the
named property of the target node. -/
def applyPropertyBinding (dom : Dom) (b : Binding) (v : JsVal) : Dom :=
  { dom with
    props := fun i k =>
      if i = b.node ∧ k = b.key then some v else dom.props i k }

end Tmpl

namespace Tmpl

theorem detach_kind (dom : Dom) (n : Nat) : (detach dom n).kind = dom.kind := by
  unfold detach
  cases dom.parent n <;> rfl

theorem replaceChild_kind (dom : Dom) (p n o : Nat) :
    (replaceChild dom p n o).kind = dom.kind := by
  unfold replaceChild
  cases dom.kind n <;> simp [detach_kind]

/-- Claim C8: value resolution is guarded: when the raw value is a callable
whose invocation throws, the exception is swallowed by the catch and the
raw value is used in its place; when the invocation returns, its result is
used; a non-callable is returned unchanged.  resolveValue is total, so no
exception propagates out of the resolution path. -/
theorem resolve_value_swallows_exceptions (raw : JsVal) :
    (isFunction raw = true → callFn raw = .error () →
      resolveTry raw = .error () ∧ resolveValue raw = raw) ∧
    (∀ r, callFn raw = .ok r → resolveValue raw = r) ∧
    (isFunction raw = false → resolveValue raw = raw) := by
  cases raw <;>
    refine ⟨?_, ?_, ?_⟩ <;>
      simp [isFunction, callFn, resolveValue, resolveTry]

/-- Witness for resolve_value_swallows_exceptions at the throwing
callable. -/
theorem resolve_value_swallows_exceptions_witness :
    (isFunction JsVal.vfunThr = true) ∧ (callFn JsVal.vfunThr = .error ()) ∧
    resolveTry JsVal.vfunThr = .error () ∧
    resolveValue JsVal.vfunThr = JsVal.vfunThr :=
  ⟨rfl, rfl,
    (resolve_value_swallows_exceptions JsVal.vfunThr).1 rfl rfl⟩

/-- Claim C9: resolveValue invokes a callable exactly once and returns its
result unchanged, with no recursive unwrapping: a callable returning a
callable resolves to the inner callable, not to its result, and a text
binding applied to such a value inserts an empty text node. -/
theorem resolve_value_single_invocation :
    (∀ w : JsVal, resolveValue (.vfunRet w) = w) ∧
    (∀ x : JsVal, resolveValue (.vfunRet (.vfunRet x)) = .vfunRet x) ∧
    (∀ (dom : Dom) (b : Binding) (p : Nat) (x : JsVal),
      dom.parent b.node = some p →
      ((applyTextBinding dom b (resolveValue (.vfunRet (.vfunRet x)))).1).kind
        ((applyTextBinding dom b (resolveValue (.vfunRet (.vfunRet x)))).2).node =
        NKind.text "") := by
  have hfun : ∀ w : JsVal, resolveValue (.vfunRet w) = w := by
    intro w
    simp [resolveValue, resolveTry, isFunction, callFn]
  refine ⟨hfun, fun x => hfun _, ?_⟩
  intro dom b p x hp
  have hres : resolveValue (.vfunRet (.vfunRet x)) = .vfunRet x := hfun _
  rw [hres]
  have hcv : chooseTextNode dom (.vfunRet x) = createTextNode dom "" := by
    simp [chooseTextNode, instanceofNodeV, isStringV, isNumberV, instanceofFragV]
  simp only [applyTextBinding, hp, hcv]
  rw [replaceChild_kind]
  simp [createTextNode, allocNode]

/-- Witness for resolve_value_single_invocation on a small concrete DOM. -/
def dom6 : Dom :=
  { next := 3,
    kind := fun i =>
      if i = 0 then .elem "div"
      else if i = 1 then .comment "binding-0"
      else if i = 2 then .frag
      else .free,
    children := fun i => if i = 0 then [1] else [],
    parent := fun i => if i = 1 then some 0 else none,
    attrs := fun _ => [],
    props := fun _ _ => none }

/-- The text binding descriptor targeting the comment node of dom6. -/
def b6 : Binding := ⟨0, "", .text, 1, none⟩

theorem resolve_value_single_invocation_witness :
    (dom6.parent b6.node = some 0) ∧
    ((applyTextBinding dom6 b6 (resolveValue (.vfunRet (.vfunRet .vundef)))).1).kind
      ((applyTextBinding dom6 b6 (resolveValue (.vfunRet (.vfunRet .vundef)))).2).node =
      NKind.text "" :=
  ⟨rfl, resolve_value_single_invocation.2.2 dom6 b6 0 .vundef rfl⟩

/-- Counterexample to claim C6 as stated: the claim requires a detached
document fragment value to be wrapped in a generic element which is then
inserted.  In the code the instanceof-Node test catches fragments first
(every DocumentFragment is a Node), so the fragment is inserted directly:
applying a text binding with the empty fragment 2 as value allocates no
node at all (the counter stays 3, and no span element exists), splices the
fragment (emptily) in place of the comment, and leaves the descriptor
pointing at the fragment itself. -/
theorem text_binding_fragment_counterexample :
    ((applyTextBinding dom6 b6 (.vnode 2)).2).node = 2 ∧
    ((applyTextBinding dom6 b6 (.vnode 2)).1).kind 2 = NKind.frag ∧
    ((applyTextBinding dom6 b6 (.vnode 2)).1).children 0 = [] ∧
    ((applyTextBinding dom6 b6 (.vnode 2)).1).next = 3 ∧
    (∀ i, i < 3 → ((applyTextBinding dom6 b6 (.vnode 2)).1).kind i ≠ NKind.elem "span") := by
  refine ⟨rfl, rfl, rfl, rfl, ?_⟩
  decide

/-- Claim C6 (amended): when the tracked node has a parent, applying a text
binding replaces the tracked node, via the parent, by the node selected
from the value, and updates the descriptor to the selected node.  The
selection follows the source order: any DOM node reference — including a
document fragment, since fragments are nodes — is used directly; a string
or number becomes a fresh text node holding its string form; every other
value becomes a fresh empty text node.  The fragment-wrapping branch is
unreachable because a fragment always passes the instanceof-Node test. -/
theorem text_binding_case_analysis_amended (dom : Dom) (b : Binding)
    (v : JsVal) (p : Nat) (hp : dom.parent b.node = some p) :
    applyTextBinding dom b v =
      (replaceChild (chooseTextNode dom v).2 p (chooseTextNode dom v).1 b.node,
       { b with node := (chooseTextNode dom v).1 }) ∧
    (instanceofNodeV v = true → chooseTextNode dom v = (nodeIdOf v, dom)) ∧
    ((isStringV v || isNumberV v) = true →
      chooseTextNode dom v = createTextNode dom (jsString v) ∧
      ((chooseTextNode dom v).2).kind (chooseTextNode dom v).1 = .text (jsString v)) ∧
    (instanceofNodeV v = false → (isStringV v || isNumberV v) = false →
      chooseTextNode dom v = createTextNode dom "" ∧
      ((chooseTextNode dom v).2).kind (chooseTextNode dom v).1 = .text "") ∧
    (∀ (d : Dom) (w : JsVal), instanceofFragV d w = true → instanceofNodeV w = true) := by
  refine ⟨?_, ?_, ?_, ?_, ?_⟩
  · rcases hcv : chooseTextNode dom v with ⟨n, d⟩
    simp [applyTextBinding, hp, hcv]
  · intro h
    cases v <;> simp [instanceofNodeV] at h <;> simp [chooseTextNode, instanceofNodeV, nodeIdOf]
  · intro h
    cases v <;> simp [isStringV, isNumberV] at h <;>
      simp [chooseTextNode, instanceofNodeV, isStringV, isNumberV, createTextNode, allocNode]
  · intro h1 h2
    cases v <;> simp [instanceofNodeV] at h1 <;> simp [isStringV, isNumberV] at h2 <;>
      simp [chooseTextNode, instanceofNodeV, isStringV, isNumberV, instanceofFragV,
        createTextNode, allocNode]
  · intro d w h
    cases w <;> simp [instanceofFragV] at h <;> rfl

/-- Witness for text_binding_case_analysis_amended on dom6 with a string
value. -/
theorem text_binding_case_analysis_amended_witness :
    (dom6.parent b6.node = some 0) ∧
    applyTextBinding dom6 b6 (.vstr "hi") =
      (replaceChild (chooseTextNode dom6 (.vstr "hi")).2 0
        (chooseTextNode dom6 (.vstr "hi")).1 b6.node,
       { b6 with node := (chooseTextNode dom6 (.vstr "hi")).1 }) :=
  ⟨rfl, (text_binding_case_analysis_amended dom6 b6 (.vstr "hi") 0 rfl).1⟩

/-- The property binding descriptor used in the coercion counterexample. -/
def b7 : Binding := ⟨0, "checked", .property, 5, none⟩

/-- Counterexample to claim C7 as stated: the claim requires the value of a
recognized boolean-valued property such as checked to be coerced to a
boolean before assignment.  The code assigns the value as-is: assigning
the string value yes to the checked property stores exactly that string,
not a boolean. -/
theorem property_binding_no_coercion_counterexample :
    ("checked" ∈ DOM_PROPS) ∧
    (applyPropertyBinding dom6 b7 (.vstr "yes")).props 5 "checked" = some (.vstr "yes") ∧
    (∀ bl : Bool,
      (applyPropertyBinding dom6 b7 (.vstr "yes")).props 5 "checked" ≠ some (.vbool bl)) := by
  refine ⟨by decide, rfl, ?_⟩
  decide

/-- Claim C7 (amended): applyPropertyBinding assigns the interpolated value
to the named property of the target node as-is, for every key; membership
of a name in DOM_PROPS only causes the binding to be classified as a
property binding, and no boolean coercion is performed by the binding
applier. -/
theorem property_binding_assigns_as_is (dom : Dom) (b : Binding) (v : JsVal) :
    (applyPropertyBinding dom b v).props b.node b.key = some v ∧
    (∀ a, a ∈ DOM_PROPS → getBindingType a = .property) := by
  constructor
  · simp [applyPropertyBinding]
  · intro a ha
    fin_cases ha <;> rfl

/-- Witness for property_binding_assigns_as_is: the boolean-named property
checked receives the uncoerced string value. -/
theorem property_binding_assigns_as_is_witness :
    ("checked" ∈ DOM_PROPS) ∧
    (applyPropertyBinding dom6 b7 (.vstr "yes")).props b7.node b7.key = some (.vstr "yes") ∧
    getBindingType "checked" = .property :=
  ⟨by decide, (property_binding_assigns_as_is dom6 b7 (.vstr "yes")).1,
    (property_binding_assigns_as_is dom6 b7 (.vstr "yes")).2 "checked" (by decide)⟩

/-- Claim C10: applying a text binding whose tracked node has no parent is
a silent no-op for every value: the heap and the descriptor are returned
unchanged. -/
theorem text_binding_no_parent_noop (dom : Dom) (b : Binding) (v : JsVal)
    (h : dom.parent b.node = none) : applyTextBinding dom b v = (dom, b) := by
  simp [applyTextBinding, h]

/-- The detached binding descriptor used in the no-parent witness. -/
def b10 : Binding := ⟨0, "", .text, 5, none⟩

/-- Witness for text_binding_no_parent_noop: node 5 of dom6 is parentless
and the binding application changes nothing. -/
theorem text_binding_no_parent_noop_witness :
    (dom6.parent b10.node = none) ∧
    applyTextBinding dom6 b10 (.vstr "x") = (dom6, b10) :=
  ⟨rfl, text_binding_no_parent_noop dom6 b10 (.vstr "x") rfl⟩

end Tmpl

namespace Tmpl

/-- The fold of html from core.ts building the markup string: concatenate
the static parts, inserting the comment marker for interpolation slot i
after part i whenever a value was interpolated there. -/
def buildMarkupAux : Nat → List String → Nat → String
  | _, [], _ => ""
  | i, sstr :: rest, n =>
    sstr ++ (if i < n then "<!--binding-" ++ toString i ++ "-->" else "")
      ++ buildMarkupAux (i+1) rest n

/-- The markup string built by html from the static parts and the number
of interpolated values. -/
def buildMarkup (parts : List String) (n : Nat) : String :=
  buildMarkupAux 0 parts n

/-- Pure parse trees produced by the browser HTML parser (which is an
uninterpreted parameter of the embedding). -/
inductive Tree where
  | elem (tag : String) (attrs : List (String × String)) (kids : List Tree)
  | text (s : String)
  | comment (s : String)

/-- Instantiate a list of parse trees into the heap, allocating fresh
nodes in preorder; fuel-indexed. -/
def instList : Nat → Dom → List Tree → Option (List Nat × Dom)
  | _, dom, [] => some ([], dom)
  | 0, _, _ :: _ => none
  | f+1, dom, .text s :: ts =>
    let (r, dom1) := allocNode dom (.text s) []
    match instList f dom1 ts with
    | some (rs, dom2) => some (r :: rs, dom2)
    | none => none
  | f+1, dom, .comment s :: ts =>
    let (r, dom1) := allocNode dom (.comment s) []
    match instList f dom1 ts with
    | some (rs, dom2) => some (r :: rs, dom2)
    | none => none
  | f+1, dom, .elem tag as kids :: ts =>
    let (r, dom1) := allocNode dom (.elem tag) as
    match instList f dom1 kids with
    | none => none
    | some (kidIds, dom2) =>
      let dom3 := { dom2 with
        children := fun i => if i = r then kidIds else dom2.children i,
        parent := fun i => if kidIds.contains i then some r else dom2.parent i }
      match instList f dom3 ts with
      | none => none
      | some (rs, dom4) => some (r :: rs, dom4)

/-- Parse-and-instantiate of the template element content: a fresh
fragment node holding the instantiated trees. -/
def instFragment (f : Nat) (dom : Dom) (ts : List Tree) : Option (Nat × Dom) :=
  let (r, dom1) := allocNode dom .frag []
  match instList f dom1 ts with
  | none => none
  | some (ids, dom2) =>
    some (r, { dom2 with
      children := fun i => if i = r then ids else dom2.children i,
      parent := fun i => if ids.contains i then some r else dom2.parent i })

/-- Deep clone of a list of heap nodes (cloneNode(true) on each),
allocating fresh copies in preorder; fuel-indexed. -/
def cloneList : Nat → Dom → List Nat → Option (List Nat × Dom)
  | _, dom, [] => some ([], dom)
  | 0, _, _ :: _ => none
  | f+1, dom, src :: rest =>
    let (r, dom1) := allocNode dom (dom.kind src) (dom.attrs src)
    match cloneList f dom1 (dom1.children src) with
    | none => none
    | some (kids, dom2) =>
      let dom3 := { dom2 with
        children := fun i => if i = r then kids else dom2.children i,
        parent := fun i => if kids.contains i then some r else dom2.parent i }
      match cloneList f dom3 rest with
      | none => none
      | some (rs, dom4) => some (r :: rs, dom4)

/-- node.cloneNode(true): deep structural copy into fresh heap nodes. -/
def cloneNode (f : Nat) (dom : Dom) (src : Nat) : Option (Nat × Dom) :=
  match cloneList f dom [src] with
  | some (r :: _, d) => some (r, d)
  | _ => none

/-- The state of the html entry point: the heap, the template cache keyed
by static-parts identity, and an instrumentation counter of how many times
the markup was parsed. -/
structure HtmlState where
  dom : Dom
  cache : Nat → Option Nat
  parseCount : Nat

/-- The caching phase of html from core.ts (lines 405 to 415): on a cache
miss build the markup string from the static parts, parse it, store the
resulting fragment skeleton under the template identity; then (hit or
miss) deep-clone the cached skeleton and return the clone. -/
def htmlTemplatePhase (parse : String → List Tree) (pf cf : Nat) (tid : Nat)
    (parts : List String) (nvals : Nat) (hs : HtmlState) :
    Option (Nat × HtmlState) :=
  match hs.cache tid with
  | some fid =>
    match cloneNode cf hs.dom fid with
    | some (r, dom2) => some (r, { hs with dom := dom2 })
    | none => none
  | none =>
    match instFragment pf hs.dom (parse (buildMarkup parts nvals)) with
    | none => none
    | some (fid, dom1) =>
      let hs1 : HtmlState :=
        { dom := dom1,
          cache := fun t => if t = tid then some fid else hs.cache t,
          parseCount := hs.parseCount + 1 }
      match cloneNode cf hs1.dom fid with
      | some (r, dom2) => some (r, { hs1 with dom := dom2 })
      | none => none

/-- The set of nodes reachable from a list of roots by following child
lists, cut off by fuel. -/
def reachL : Nat → Dom → List Nat → List Nat
  | 0, _, _ => []
  | _+1, _, [] => []
  | f+1, dom, n :: rest => n :: (reachL f dom (dom.children n) ++ reachL f dom rest)

/-- Every member of the list lies in the half-open range. -/
def InRange (lo hi : Nat) (l : List Nat) : Prop :=
  ∀ x ∈ l, lo ≤ x ∧ x < hi

end Tmpl

namespace Tmpl

theorem cloneList_facts :
    ∀ (f : Nat) (dom : Dom) (srcs rs : List Nat) (dom' : Dom),
      cloneList f dom srcs = some (rs, dom') →
      dom.next ≤ dom'.next ∧
      (∀ i, i < dom.next → dom'.children i = dom.children i) ∧
      (∀ i, dom'.next ≤ i → dom'.children i = dom.children i) ∧
      InRange dom.next dom'.next rs ∧
      (∀ i, dom.next ≤ i → i < dom'.next →
        InRange dom.next dom'.next (dom'.children i)) := by
  intro f
  induction f with
  | zero =>
    intro dom srcs rs dom' h
    match srcs with
    | [] =>
      rw [show cloneList 0 dom [] = some ([], dom) from rfl] at h
      cases h
      refine ⟨Nat.le_refl _, fun i _ => rfl, fun i _ => rfl, ?_, ?_⟩
      · intro x hx
        cases hx
      · intro i hge hlt
        omega
    | _ :: _ => cases h
  | succ f ih =>
    intro dom srcs rs dom' h
    match srcs with
    | [] =>
      rw [show cloneList (f+1) dom [] = some ([], dom) from rfl] at h
      cases h
      refine ⟨Nat.le_refl _, fun i _ => rfl, fun i _ => rfl, ?_, ?_⟩
      · intro x hx
        cases hx
      · intro i hge hlt
        omega
    | src :: rest =>
      simp only [cloneList, allocNode] at h
      cases h1 : cloneList f
          { dom with
            next := dom.next + 1,
            kind := fun i => if i = dom.next then dom.kind src else dom.kind i,
            attrs := fun i => if i = dom.next then dom.attrs src else dom.attrs i,
            children := fun i => if i = dom.next then [] else dom.children i,
            parent := fun i => if i = dom.next then none else dom.parent i }
          (if src = dom.next then [] else dom.children src) with
      | none =>
        rw [h1] at h
        cases h
      | some kd =>
        obtain ⟨kids, dom2⟩ := kd
        rw [h1] at h
        dsimp only at h
        obtain ⟨hA1, hA2, hA3, hA4, hA5⟩ := ih _ _ _ _ h1
        cases h2 : cloneList f
            { dom2 with
              children := fun i => if i = dom.next then kids else dom2.children i,
              parent := fun i => if kids.contains i then some dom.next else dom2.parent i }
            rest with
        | none =>
          rw [h2] at h
          cases h
        | some rd =>
          obtain ⟨rs', dom4⟩ := rd
          rw [h2] at h
          obtain ⟨hrs, hdom⟩ : dom.next :: rs' = rs ∧ dom' = dom4 := by
            cases h
            exact ⟨rfl, rfl⟩
          subst hrs
          subst hdom
          obtain ⟨hB1, hB2, hB3, hB4, hB5⟩ := ih _ _ _ _ h2
          have hA1n : dom.next + 1 ≤ dom2.next := hA1
          have hA2n : ∀ i, i < dom.next + 1 →
              dom2.children i = (if i = dom.next then [] else dom.children i) := hA2
          have hA3n : ∀ i, dom2.next ≤ i →
              dom2.children i = (if i = dom.next then [] else dom.children i) := hA3
          have hA4n : InRange (dom.next + 1) dom2.next kids := hA4
          have hA5n : ∀ i, dom.next + 1 ≤ i → i < dom2.next →
              InRange (dom.next + 1) dom2.next (dom2.children i) := hA5
          have hB1n : dom2.next ≤ dom'.next := hB1
          have hB2n : ∀ i, i < dom2.next →
              dom'.children i = (if i = dom.next then kids else dom2.children i) := hB2
          have hB3n : ∀ i, dom'.next ≤ i →
              dom'.children i = (if i = dom.next then kids else dom2.children i) := hB3
          have hB4n : InRange dom2.next dom'.next rs' := hB4
          have hB5n : ∀ i, dom2.next ≤ i → i < dom'.next →
              InRange dom2.next dom'.next (dom'.children i) := hB5
          refine ⟨by omega, ?_, ?_, ?_, ?_⟩
          · -- children below dom.next are untouched
            intro i hi
            rw [hB2n i (by omega), if_neg (by omega), hA2n i (by omega),
              if_neg (by omega)]
          · -- children at or above the final counter are untouched
            intro i hi
            rw [hB3n i hi, if_neg (by omega), hA3n i (by omega), if_neg (by omega)]
          · -- the returned roots are fresh
            intro x hx
            cases hx with
            | head => omega
            | tail _ hx' =>
              have := hB4n x hx'
              omega
          · -- the fresh region is closed under children
            intro i hge hlt
            by_cases hieq : i = dom.next
            · subst hieq
              rw [hB2n dom.next (by omega), if_pos rfl]
              intro x hx
              have := hA4n x hx
              omega
            · by_cases hi2 : i < dom2.next
              · rw [hB2n i hi2, if_neg hieq]
                have hcl := hA5n i (by omega) hi2
                intro x hx
                have := hcl x hx
                omega
              · have hcl := hB5n i (by omega) hlt
                intro x hx
                have := hcl x hx
                omega

theorem instList_facts :
    ∀ (f : Nat) (dom : Dom) (ts : List Tree) (rs : List Nat) (dom' : Dom),
      instList f dom ts = some (rs, dom') →
      dom.next ≤ dom'.next ∧
      (∀ i, i < dom.next → dom'.children i = dom.children i) ∧
      (∀ i, dom'.next ≤ i → dom'.children i = dom.children i) ∧
      InRange dom.next dom'.next rs ∧
      (∀ i, dom.next ≤ i → i < dom'.next →
        InRange dom.next dom'.next (dom'.children i)) := by
  intro f
  induction f with
  | zero =>
    intro dom ts rs dom' h
    match ts with
    | [] =>
      rw [show instList 0 dom [] = some ([], dom) from rfl] at h
      cases h
      refine ⟨Nat.le_refl _, fun i _ => rfl, fun i _ => rfl, ?_, ?_⟩
      · intro x hx
        cases hx
      · intro i hge hlt
        omega
    | _ :: _ => cases h
  | succ f ih =>
    intro dom ts rs dom' h
    match ts with
    | [] =>
      rw [show instList (f+1) dom [] = some ([], dom) from rfl] at h
      cases h
      refine ⟨Nat.le_refl _, fun i _ => rfl, fun i _ => rfl, ?_, ?_⟩
      · intro x hx
        cases hx
      · intro i hge hlt
        omega
    | .text s :: ts' =>
      simp only [instList, allocNode] at h
      cases h1 : instList f
          { dom with
            next := dom.next + 1,
            kind := fun i => if i = dom.next then NKind.text s else dom.kind i,
            attrs := fun i => if i = dom.next then [] else dom.attrs i,
            children := fun i => if i = dom.next then [] else dom.children i,
            parent := fun i => if i = dom.next then none else dom.parent i }
          ts' with
      | none =>
        rw [h1] at h
        cases h
      | some rd =>
        obtain ⟨rs', dom2⟩ := rd
        rw [h1] at h
        obtain ⟨hrs, hdom⟩ : dom.next :: rs' = rs ∧ dom' = dom2 := by
          cases h
          exact ⟨rfl, rfl⟩
        subst hrs
        subst hdom
        obtain ⟨hA1, hA2, hA3, hA4, hA5⟩ := ih _ _ _ _ h1
        have hA1n : dom.next + 1 ≤ dom'.next := hA1
        have hA2n : ∀ i, i < dom.next + 1 →
            dom'.children i = (if i = dom.next then [] else dom.children i) := hA2
        have hA3n : ∀ i, dom'.next ≤ i →
            dom'.children i = (if i = dom.next then [] else dom.children i) := hA3
        have hA4n : InRange (dom.next + 1) dom'.next rs' := hA4
        have hA5n : ∀ i, dom.next + 1 ≤ i → i < dom'.next →
            InRange (dom.next + 1) dom'.next (dom'.children i) := hA5
        refine ⟨by omega, ?_, ?_, ?_, ?_⟩
        · intro i hi
          rw [hA2n i (by omega), if_neg (by omega)]
        · intro i hi
          rw [hA3n i hi, if_neg (by omega)]
        · intro x hx
          cases hx with
          | head => omega
          | tail _ hx' =>
            have := hA4n x hx'
            omega
        · intro i hge hlt
          by_cases hieq : i = dom.next
          · subst hieq
            rw [hA2n dom.next (by omega), if_pos rfl]
            intro x hx
            cases hx
          · have hcl := hA5n i (by omega) hlt
            intro x hx
            have := hcl x hx
            omega
    | .comment s :: ts' =>
      simp only [instList, allocNode] at h
      cases h1 : instList f
          { dom with
            next := dom.next + 1,
            kind := fun i => if i = dom.next then NKind.comment s else dom.kind i,
            attrs := fun i => if i = dom.next then [] else dom.attrs i,
            children := fun i => if i = dom.next then [] else dom.children i,
            parent := fun i => if i = dom.next then none else dom.parent i }
          ts' with
      | none =>
        rw [h1] at h
        cases h
      | some rd =>
        obtain ⟨rs', dom2⟩ := rd
        rw [h1] at h
        obtain ⟨hrs, hdom⟩ : dom.next :: rs' = rs ∧ dom' = dom2 := by
          cases h
          exact ⟨rfl, rfl⟩
        subst hrs
        subst hdom
        obtain ⟨hA1, hA2, hA3, hA4, hA5⟩ := ih _ _ _ _ h1
        have hA1n : dom.next + 1 ≤ dom'.next := hA1
        have hA2n : ∀ i, i < dom.next + 1 →
            dom'.children i = (if i = dom.next then [] else dom.children i) := hA2
        have hA3n : ∀ i, dom'.next ≤ i →
            dom'.children i = (if i = dom.next then [] else dom.children i) := hA3
        have hA4n : InRange (dom.next + 1) dom'.next rs' := hA4
        have hA5n : ∀ i, dom.next + 1 ≤ i → i < dom'.next →
            InRange (dom.next + 1) dom'.next (dom'.children i) := hA5
        refine ⟨by omega, ?_, ?_, ?_, ?_⟩
        · intro i hi
          rw [hA2n i (by omega), if_neg (by omega)]
        · intro i hi
          rw [hA3n i hi, if_neg (by omega)]
        · intro x hx
          cases hx with
          | head => omega
          | tail _ hx' =>
            have := hA4n x hx'
            omega
        · intro i hge hlt
          by_cases hieq : i = dom.next
          · subst hieq
            rw [hA2n dom.next (by omega), if_pos rfl]
            intro x hx
            cases hx
          · have hcl := hA5n i (by omega) hlt
            intro x hx
            have := hcl x hx
            omega
    | .elem tag as kids :: ts' =>
      simp only [instList, allocNode] at h
      cases h1 : instList f
          { dom with
            next := dom.next + 1,
            kind := fun i => if i = dom.next then NKind.elem tag else dom.kind i,
            attrs := fun i => if i = dom.next then as else dom.attrs i,
            children := fun i => if i = dom.next then [] else dom.children i,
            parent := fun i => if i = dom.next then none else dom.parent i }
          kids with
      | none =>
        rw [h1] at h
        cases h
      | some kd =>
        obtain ⟨kidIds, dom2⟩ := kd
        rw [h1] at h
        dsimp only at h
        obtain ⟨hA1, hA2, hA3, hA4, hA5⟩ := ih _ _ _ _ h1
        cases h2 : instList f
            { dom2 with
              children := fun i => if i = dom.next then kidIds else dom2.children i,
              parent := fun i => if kidIds.contains i then some dom.next else dom2.parent i }
            ts' with
        | none =>
          rw [h2] at h
          cases h
        | some rd =>
          obtain ⟨rs', dom4⟩ := rd
          rw [h2] at h
          obtain ⟨hrs, hdom⟩ : dom.next :: rs' = rs ∧ dom' = dom4 := by
            cases h
            exact ⟨rfl, rfl⟩
          subst hrs
          subst hdom
          obtain ⟨hB1, hB2, hB3, hB4, hB5⟩ := ih _ _ _ _ h2
          have hA1n : dom.next + 1 ≤ dom2.next := hA1
          have hA2n : ∀ i, i < dom.next + 1 →
              dom2.children i = (if i = dom.next then [] else dom.children i) := hA2
          have hA3n : ∀ i, dom2.next ≤ i →
              dom2.children i = (if i = dom.next then [] else dom.children i) := hA3
          have hA4n : InRange (dom.next + 1) dom2.next kidIds := hA4
          have hA5n : ∀ i, dom.next + 1 ≤ i → i < dom2.next →
              InRange (dom.next + 1) dom2.next (dom2.children i) := hA5
          have hB1n : dom2.next ≤ dom'.next := hB1
          have hB2n : ∀ i, i < dom2.next →
              dom'.children i = (if i = dom.next then kidIds else dom2.children i) := hB2
          have hB3n : ∀ i, dom'.next ≤ i →
              dom'.children i = (if i = dom.next then kidIds else dom2.children i) := hB3
          have hB4n : InRange dom2.next dom'.next rs' := hB4
          have hB5n : ∀ i, dom2.next ≤ i → i < dom'.next →
              InRange dom2.next dom'.next (dom'.children i) := hB5
          refine ⟨by omega, ?_, ?_, ?_, ?_⟩
          · intro i hi
            rw [hB2n i (by omega), if_neg (by omega), hA2n i (by omega),
              if_neg (by omega)]
          · intro i hi
            rw [hB3n i hi, if_neg (by omega), hA3n i (by omega), if_neg (by omega)]
          · intro x hx
            cases hx with
            | head => omega
            | tail _ hx' =>
              have := hB4n x hx'
              omega
          · intro i hge hlt
            by_cases hieq : i = dom.next
            · subst hieq
              rw [hB2n dom.next (by omega), if_pos rfl]
              intro x hx
              have := hA4n x hx
              omega
            · by_cases hi2 : i < dom2.next
              · rw [hB2n i hi2, if_neg hieq]
                have hcl := hA5n i (by omega) hi2
                intro x hx
                have := hcl x hx
                omega
              · have hcl := hB5n i (by omega) hlt
                intro x hx
                have := hcl x hx
                omega

theorem instFragment_facts (f : Nat) (dom : Dom) (ts : List Tree)
    (fid : Nat) (dom' : Dom) (h : instFragment f dom ts = some (fid, dom')) :
    fid = dom.next ∧ dom.next < dom'.next ∧
    (∀ i, i < dom.next → dom'.children i = dom.children i) ∧
    (∀ i, dom'.next ≤ i → dom'.children i = dom.children i) ∧
    (∀ i, dom.next ≤ i → i < dom'.next →
      InRange dom.next dom'.next (dom'.children i)) := by
  simp only [instFragment, allocNode] at h
  cases h1 : instList f
      { dom with
        next := dom.next + 1,
        kind := fun i => if i = dom.next then NKind.frag else dom.kind i,
        attrs := fun i => if i = dom.next then [] else dom.attrs i,
        children := fun i => if i = dom.next then [] else dom.children i,
        parent := fun i => if i = dom.next then none else dom.parent i }
      ts with
  | none =>
    rw [h1] at h
    cases h
  | some rd =>
    obtain ⟨ids, dom2⟩ := rd
    rw [h1] at h
    simp only [Option.some.injEq, Prod.mk.injEq] at h
    obtain ⟨hfid, hdom⟩ := h
    subst hfid
    subst hdom
    obtain ⟨hA1, hA2, hA3, hA4, hA5⟩ := instList_facts f _ ts ids dom2 h1
    have hA1n : dom.next + 1 ≤ dom2.next := hA1
    have hA2n : ∀ i, i < dom.next + 1 →
        dom2.children i = (if i = dom.next then [] else dom.children i) := hA2
    have hA3n : ∀ i, dom2.next ≤ i →
        dom2.children i = (if i = dom.next then [] else dom.children i) := hA3
    have hA4n : InRange (dom.next + 1) dom2.next ids := hA4
    have hA5n : ∀ i, dom.next + 1 ≤ i → i < dom2.next →
        InRange (dom.next + 1) dom2.next (dom2.children i) := hA5
    refine ⟨rfl, (by show dom.next < dom2.next; omega), ?_, ?_, ?_⟩
    · intro i hi
      show (if i = dom.next then ids else dom2.children i) = dom.children i
      rw [if_neg (by omega), hA2n i (by omega), if_neg (by omega)]
    · intro i hi
      show (if i = dom.next then ids else dom2.children i) = dom.children i
      have hin : dom2.next ≤ i := hi
      rw [if_neg (by omega), hA3n i hin, if_neg (by omega)]
    · intro i hge hlt
      have hltn : i < dom2.next := hlt
      show InRange dom.next dom2.next (if i = dom.next then ids else dom2.children i)
      by_cases hieq : i = dom.next
      · rw [if_pos hieq]
        intro x hx
        have := hA4n x hx
        omega
      · rw [if_neg hieq]
        have hcl := hA5n i (by omega) hltn
        intro x hx
        have := hcl x hx
        omega

theorem cloneNode_facts (f : Nat) (dom : Dom) (src r : Nat) (dom' : Dom)
    (h : cloneNode f dom src = some (r, dom')) :
    dom.next ≤ r ∧ r < dom'.next ∧ dom.next ≤ dom'.next ∧
    (∀ i, i < dom.next → dom'.children i = dom.children i) ∧
    (∀ i, dom'.next ≤ i → dom'.children i = dom.children i) ∧
    (∀ i, dom.next ≤ i → i < dom'.next →
      InRange dom.next dom'.next (dom'.children i)) := by
  unfold cloneNode at h
  cases hc : cloneList f dom [src] with
  | none =>
    rw [hc] at h
    cases h
  | some rd =>
    obtain ⟨rs, d⟩ := rd
    rw [hc] at h
    cases rs with
    | nil => cases h
    | cons r0 rest =>
      simp only [Option.some.injEq, Prod.mk.injEq] at h
      obtain ⟨hr, hd⟩ := h
      subst hr
      subst hd
      obtain ⟨hC1, hC2, hC3, hC4, hC5⟩ := cloneList_facts f dom [src] _ _ hc
      have hr0 := hC4 r0 (List.mem_cons_self _ _)
      exact ⟨hr0.1, hr0.2, hC1, hC2, hC3, hC5⟩

theorem reachL_in_range (dom : Dom) (lo hi : Nat)
    (hreg : ∀ i, lo ≤ i → i < hi → InRange lo hi (dom.children i)) :
    ∀ (g : Nat) (ns : List Nat), InRange lo hi ns →
      InRange lo hi (reachL g dom ns) := by
  intro g
  induction g with
  | zero =>
    intro ns h x hx
    cases hx
  | succ g ih =>
    intro ns h
    match ns with
    | [] =>
      intro x hx
      cases hx
    | n :: rest =>
      intro x hx
      rw [show reachL (g+1) dom (n :: rest) =
          n :: (reachL g dom (dom.children n) ++ reachL g dom rest) from rfl] at hx
      have hn := h n (List.mem_cons_self _ _)
      cases hx with
      | head => exact hn
      | tail _ hx' =>
        rcases List.mem_append.1 hx' with hcase | hcase
        · exact ih (dom.children n) (hreg n hn.1 hn.2) x hcase
        · exact ih rest (fun y hy => h y (List.mem_cons_of_mem _ hy)) x hcase

theorem disjoint_of_inRange {lo1 hi1 lo2 hi2 : Nat} {l1 l2 : List Nat}
    (h1 : InRange lo1 hi1 l1) (h2 : InRange lo2 hi2 l2) (h : hi1 ≤ lo2) :
    l1.Disjoint l2 := by
  intro a ha hb
  have := h1 a ha
  have := h2 a hb
  omega

/-- Claim C5: for a distinct static-parts identity, html parses the markup
exactly once — the first call (cache miss) increments the parse count and
stores the fragment skeleton under the template identity; a second call
with the same identity performs no parse (the count and the cache are
unchanged) and clones the cached skeleton.  The skeleton and the two
returned clones occupy pairwise disjoint sets of heap nodes (computed by
child-list reachability at any depth), so mutating the tree returned by
one call cannot affect the tree returned by the other call nor the cached
skeleton. -/
theorem template_cache_single_parse
    (parse : String → List Tree) (pf cf cf2 tid : Nat) (parts : List String)
    (nvals : Nat) (hs : HtmlState) (r1 r2 : Nat) (hs1 hs2 : HtmlState)
    (hmiss : hs.cache tid = none)
    (h1 : htmlTemplatePhase parse pf cf tid parts nvals hs = some (r1, hs1))
    (h2 : htmlTemplatePhase parse pf cf2 tid parts nvals hs1 = some (r2, hs2)) :
    hs1.parseCount = hs.parseCount + 1 ∧
    hs2.parseCount = hs1.parseCount ∧
    hs2.cache = hs1.cache ∧
    ∃ fid, hs1.cache tid = some fid ∧
      ∀ g1 g2 g3,
        List.Disjoint (reachL g1 hs2.dom [fid]) (reachL g2 hs2.dom [r1]) ∧
        List.Disjoint (reachL g1 hs2.dom [fid]) (reachL g3 hs2.dom [r2]) ∧
        List.Disjoint (reachL g2 hs2.dom [r1]) (reachL g3 hs2.dom [r2]) := by
  simp only [htmlTemplatePhase, hmiss] at h1
  cases hinst : instFragment pf hs.dom (parse (buildMarkup parts nvals)) with
  | none =>
    rw [hinst] at h1
    cases h1
  | some fd =>
    obtain ⟨fid0, dom1⟩ := fd
    rw [hinst] at h1
    dsimp only at h1
    cases hcl1 : cloneNode cf dom1 fid0 with
    | none =>
      rw [hcl1] at h1
      cases h1
    | some rd =>
      obtain ⟨r1x, dom2⟩ := rd
      rw [hcl1] at h1
      simp only [Option.some.injEq, Prod.mk.injEq] at h1
      obtain ⟨hr1, hhs1⟩ := h1
      subst hr1
      subst hhs1
      simp only [htmlTemplatePhase] at h2
      simp only [if_true, ite_true] at h2
      cases hcl2 : cloneNode cf2 dom2 fid0 with
      | none =>
        rw [hcl2] at h2
        cases h2
      | some rd2 =>
        obtain ⟨r2x, dom3⟩ := rd2
        rw [hcl2] at h2
        simp only [Option.some.injEq, Prod.mk.injEq] at h2
        obtain ⟨hr2, hhs2⟩ := h2
        subst hr2
        subst hhs2
        obtain ⟨hfid, hF1, hF2, hF3, hF4⟩ :=
          instFragment_facts pf hs.dom _ fid0 dom1 hinst
        obtain ⟨hc1a, hc1b, hc1c, hc1d, hc1e, hc1f⟩ :=
          cloneNode_facts cf dom1 fid0 r1x dom2 hcl1
        obtain ⟨hc2a, hc2b, hc2c, hc2d, hc2e, hc2f⟩ :=
          cloneNode_facts cf2 dom2 fid0 r2x dom3 hcl2
        subst hfid
        refine ⟨rfl, rfl, rfl, hs.dom.next, by simp, ?_⟩
        intro g1 g2 g3
        have hreg0 : ∀ i, hs.dom.next ≤ i → i < dom1.next →
            InRange hs.dom.next dom1.next (dom3.children i) := by
          intro i hge hlt
          rw [hc2d i (by omega), hc1d i hlt]
          exact hF4 i hge hlt
        have hreg1 : ∀ i, dom1.next ≤ i → i < dom2.next →
            InRange dom1.next dom2.next (dom3.children i) := by
          intro i hge hlt
          rw [hc2d i (by omega)]
          exact hc1f i hge hlt
        have hR0 : InRange hs.dom.next dom1.next (reachL g1 dom3 [hs.dom.next]) := by
          refine reachL_in_range dom3 _ _ hreg0 g1 _ ?_
          intro x hx
          cases hx with
          | head => exact ⟨Nat.le_refl _, hF1⟩
          | tail _ hx' => cases hx'
        have hR1 : InRange dom1.next dom2.next (reachL g2 dom3 [r1x]) := by
          refine reachL_in_range dom3 _ _ hreg1 g2 _ ?_
          intro x hx
          cases hx with
          | head => exact ⟨hc1a, hc1b⟩
          | tail _ hx' => cases hx'
        have hR2 : InRange dom2.next dom3.next (reachL g3 dom3 [r2x]) := by
          refine reachL_in_range dom3 _ _ hc2f g3 _ ?_
          intro x hx
          cases hx with
          | head => exact ⟨hc2a, hc2b⟩
          | tail _ hx' => cases hx'
        exact ⟨disjoint_of_inRange hR0 hR1 (Nat.le_refl _),
          disjoint_of_inRange hR0 hR2 hc1c,
          disjoint_of_inRange hR1 hR2 (Nat.le_refl _)⟩

/-- Parser stub for the cache witness: one text node. -/
def wparse : String → List Tree := fun _ => [Tree.text "hi"]

/-- Static parts for the cache witness. -/
def wparts : List String := ["<p>", "</p>"]

/-- Empty html state for the cache witness. -/
def whs0 : HtmlState :=
  ⟨⟨0, fun _ => .free, fun _ => [], fun _ => none, fun _ => [], fun _ _ => none⟩,
   fun _ => none, 0⟩

/-- Witness for template_cache_single_parse: two calls at template identity
7 from the empty state. -/
theorem template_cache_single_parse_witness :
    whs0.cache 7 = none ∧
    ∃ r1 hs1 r2 hs2,
      htmlTemplatePhase wparse 9 9 7 wparts 1 whs0 = some (r1, hs1) ∧
      htmlTemplatePhase wparse 9 9 7 wparts 1 hs1 = some (r2, hs2) ∧
      hs1.parseCount = whs0.parseCount + 1 ∧
      hs2.parseCount = hs1.parseCount ∧
      hs2.cache = hs1.cache ∧
      ∃ fid, hs1.cache 7 = some fid ∧
        ∀ g1 g2 g3,
          List.Disjoint (reachL g1 hs2.dom [fid]) (reachL g2 hs2.dom [r1]) ∧
          List.Disjoint (reachL g1 hs2.dom [fid]) (reachL g3 hs2.dom [r2]) ∧
          List.Disjoint (reachL g2 hs2.dom [r1]) (reachL g3 hs2.dom [r2]) := by
  refine ⟨rfl, 2, _, 4, _, rfl, rfl, ?_⟩
  exact template_cache_single_parse wparse 9 9 9 7 wparts 1 whs0 2 4 _ _ rfl rfl rfl

end Tmpl
